import Mathlib

/-!
# pyelphelnmea: encoding of NMEA sentences in the Elphel nibble format

Shallow embedding of `src/pyelphelnmea.c` (functions `nmea_setquartet` and
`nmea_encode`) and the properties established about it.

Conventions of the embedding.

* A sentence is the list of the bytes of the C string before its terminating NUL.
  Bytes are natural numbers; a well-formed sentence has every byte below 256.
* A record is the list of the bytes of the output buffer. An access outside the
  buffer, or a read past the NUL that ends a model string, has no defined
  behaviour in C: the embedding returns `none` there.
* The `int` counters `neParse`, `neLength`, `nePointer`, `neOffset` are natural
  numbers. They are bounded by `1 + 2 * strlen`, so no `int` arithmetic
  overflows for sentences shorter than `2^30` bytes.
* A conversion of an `int` expression to `unsigned char` is written `toUChar`
  (reduction modulo 256).
-/

namespace ElphelNmea

/-! ## Constants -/

/-- Bytes of a string literal, one per character. -/
def bytes (s : String) : List Nat := s.toList.map Char.toNat

/-- Source: `# define MODEL_RMC "QBQBQBQQQQB"`. -/
def MODEL_RMC : List Nat := bytes "QBQBQBQQQQB"
/-- Source: `# define MODEL_GGA "QQBQBQQQQBQBBB"`. -/
def MODEL_GGA : List Nat := bytes "QQBQBQQQQBQBBB"
/-- Source: `# define MODEL_GSA "BQQQQQQQQQQQQQQQQ"`. -/
def MODEL_GSA : List Nat := bytes "BQQQQQQQQQQQQQQQQ"
/-- Source: `# define MODEL_VTG "QBQBQBQB"`. -/
def MODEL_VTG : List Nat := bytes "QBQBQBQB"

def IDENT_RMC : Nat := 0
def IDENT_GGA : Nat := 1
def IDENT_GSA : Nat := 2
def IDENT_VTG : Nat := 3
def IDENT_MAX : Nat := 4
def IDENT_FAI : Nat := 63

/-- The header tokens searched by `nmea_encode`, in the order of the `if` chain. -/
def TOKEN_RMC : List Nat := bytes "$GPRMC,"
def TOKEN_GGA : List Nat := bytes "$GPGGA,"
def TOKEN_GSA : List Nat := bytes "$GPGSA,"
def TOKEN_VTG : List Nat := bytes "$GPVTG,"

/-- The array `neModel[IDENT_MAX]` of `nmea_encode`. -/
def neModel : Nat → List Nat
  | 0 => MODEL_RMC
  | 1 => MODEL_GGA
  | 2 => MODEL_GSA
  | 3 => MODEL_VTG
  | _ => []

/-- The read `neModel[neType][nePointer]`. A model is a C string literal, so the
index equal to its length reads the terminating NUL; a larger index, or a type
outside the array, is an out-of-bounds read. -/
def modelAt (neType nePointer : Nat) : Option Nat :=
  if neType < IDENT_MAX then
    if nePointer < (neModel neType).length then (neModel neType)[nePointer]?
    else if nePointer = (neModel neType).length then some 0
    else none
  else none

/-- Conversion of an `int` value to `unsigned char`. -/
def toUChar (i : Int) : Nat := (i % 256).toNat

/-! ## libc -/

/-- C `strstr(hay, needle)`: offset of the first occurrence of `needle` in `hay`,
`none` for the NULL result. -/
def strstr (hay needle : List Nat) : Option Nat :=
  if needle.isPrefixOf hay then some 0
  else
    match hay with
    | [] => none
    | _ :: rest => (strstr rest needle).map (· + 1)

/-! ## The program -/

/-- Source: `nmea_setquartet`,
`neRecord[ neOffset >> 1 ] |= ( neQuartet % 16 ) << ( ( neOffset % 2 ) * 4 )`.
The parameter `neQuartet` is an `unsigned char`; the result of the `|` is stored
back into an `unsigned char`. -/
def nmea_setquartet (neQuartet : Nat) (neRecord : List Nat) (neOffset : Nat) :
    Option (List Nat) :=
  if h : neOffset >>> 1 < neRecord.length then
    some (neRecord.set (neOffset >>> 1)
      ((neRecord[neOffset >>> 1] ||| ((neQuartet % 16) <<< ((neOffset % 2) * 4))) % 256))
  else none

/-- The local state of `nmea_encode` that changes while it runs. -/
structure EncState where
  neRecord : List Nat
  nePointer : Nat
  neOffset : Nat
deriving DecidableEq, Repr

/-- Lines 91-117 of `nmea_encode`: the value of `neType` after the chain of
`strstr` tests. -/
def nmea_encode_type (neSentence : List Nat) : Nat :=
  if (strstr neSentence TOKEN_RMC).isSome then IDENT_RMC
  else if (strstr neSentence TOKEN_GGA).isSome then IDENT_GGA
  else if (strstr neSentence TOKEN_GSA).isSome then IDENT_GSA
  else if (strstr neSentence TOKEN_VTG).isSome then IDENT_VTG
  else IDENT_FAI

/-- Lines 134-180 of `nmea_encode`: the body of the `for` loop, for the
character `c = neSentence[neParse]`. -/
def nmea_encode_body (neType : Nat) (c : Nat) (st : EncState) : Option EncState :=
  if c = 0x2C then
    match modelAt neType st.nePointer with
    | none => none
    | some tag =>
      if tag = 0x51 then
        match nmea_setquartet 0x0F st.neRecord st.neOffset with
        | none => none
        | some r1 => some ⟨r1, st.nePointer + 1, st.neOffset + 1⟩
      else
        match nmea_setquartet 0x0F st.neRecord st.neOffset with
        | none => none
        | some r1 =>
          match nmea_setquartet 0x0F r1 (st.neOffset + 1) with
          | none => none
          | some r2 => some ⟨r2, st.nePointer + 1, st.neOffset + 2⟩
  else
    match modelAt neType st.nePointer with
    | none => none
    | some tag =>
      if tag = 0x51 then
        if 0x30 ≤ c ∧ c < 0x3A then
          match nmea_setquartet (toUChar ((c : Int) - 0x30)) st.neRecord st.neOffset with
          | none => none
          | some r1 => some ⟨r1, st.nePointer, st.neOffset + 1⟩
        else
          match nmea_setquartet (toUChar ((c : Int) - 0x20)) st.neRecord st.neOffset with
          | none => none
          | some r1 => some ⟨r1, st.nePointer, st.neOffset + 1⟩
      else
        match nmea_setquartet (toUChar ((c : Int) % 16)) st.neRecord st.neOffset with
        | none => none
        | some r1 =>
          match nmea_setquartet (toUChar ((c >>> 4 : Nat) : Int)) r1 (st.neOffset + 1) with
          | none => none
          | some r2 => some ⟨r2, st.nePointer, st.neOffset + 2⟩

/-- Lines 132-182 of `nmea_encode`: the `for` loop over the characters that
follow the header. -/
def nmea_encode_loop (neType : Nat) : List Nat → EncState → Option EncState
  | [], st => some st
  | c :: cs, st =>
    match nmea_encode_body neType c st with
    | none => none
    | some st1 => nmea_encode_loop neType cs st1

/-- Source: `nmea_encode`. The result is the state at the end of the call: the
record, the model pointer and the offset (the number of units written). -/
def nmea_encode (neSentence neRecord : List Nat) : Option EncState :=
  if nmea_encode_type neSentence < IDENT_MAX then
    match nmea_setquartet (toUChar (nmea_encode_type neSentence)) neRecord 0 with
    | none => none
    | some r1 => nmea_encode_loop (nmea_encode_type neSentence) (neSentence.drop 7) ⟨r1, 0, 1⟩
  else some ⟨neRecord, 0, 0⟩

/-! ## Tokens -/

/-- The four header tokens with the identifier the `if` chain assigns to each. -/
def tokenTable : List (List Nat × Nat) :=
  [(TOKEN_RMC, IDENT_RMC), (TOKEN_GGA, IDENT_GGA), (TOKEN_GSA, IDENT_GSA), (TOKEN_VTG, IDENT_VTG)]

/-- Some header token occurs in the sentence as a contiguous substring. -/
def HasToken (s : List Nat) : Prop :=
  TOKEN_RMC <:+: s ∨ TOKEN_GGA <:+: s ∨ TOKEN_GSA <:+: s ∨ TOKEN_VTG <:+: s

/-! ## Views used to state the properties -/

/-- The 4-bit unit at nibble offset `j` of a record: the low nibble of byte
`j / 2` when `j` is even, its high nibble when `j` is odd (0 outside the record). -/
def unitAt (r : List Nat) (j : Nat) : Nat :=
  (r.getD (j / 2) 0 >>> ((j % 2) * 4)) % 16

/-- The sequence of calls `nmea_setquartet q₀ … off`, `nmea_setquartet q₁ … (off+1)`, …
for the quartet arguments `q₀, q₁, …`. -/
def writeUnits : List Nat → List Nat → Nat → Option (List Nat)
  | [], r, _ => some r
  | q :: qs, r, off =>
    match nmea_setquartet q r off with
    | none => none
    | some r1 => writeUnits qs r1 (off + 1)

/-- The quartet arguments that one iteration of the loop of `nmea_encode` passes to
`nmea_setquartet`, for the model tag `tag` and the character `c`. -/
def bodyUnits (tag c : Nat) : List Nat :=
  if c = 0x2C then
    if tag = 0x51 then [0x0F] else [0x0F, 0x0F]
  else if tag = 0x51 then
    if 0x30 ≤ c ∧ c < 0x3A then [toUChar ((c : Int) - 0x30)] else [toUChar ((c : Int) - 0x20)]
  else [toUChar ((c : Int) % 16), toUChar ((c >>> 4 : Nat) : Int)]

/-- The quartet arguments of the whole loop started with model pointer `p`;
`none` when a model read is out of bounds. -/
def loopUnits (neType : Nat) : Nat → List Nat → Option (List Nat)
  | _, [] => some []
  | p, c :: cs =>
    match modelAt neType p with
    | none => none
    | some tag =>
      match loopUnits neType (p + if c = 0x2C then 1 else 0) cs with
      | none => none
      | some us => some (bodyUnits tag c ++ us)

/-! ## Reference packing, following the record layout of the specification -/

/-- Units that the layout prescribes for one character `c` of a field with model
tag `tag`: a comma is the terminator (one `0xF` for `'Q'`, two for `'B'`); another
character is one unit in a `'Q'` field (the digit value, or `(c - 0x20) mod 16`) and
its two nibbles, low first, in a `'B'` field. -/
def refCharUnits (tag c : Nat) : List Nat :=
  if c = 0x2C then
    if tag = 0x51 then [0xF] else if tag = 0x42 then [0xF, 0xF] else []
  else if tag = 0x51 then
    [if 0x30 ≤ c ∧ c ≤ 0x39 then c - 0x30 else (((c : Int) - 0x20) % 16).toNat]
  else if tag = 0x42 then [c % 16, c / 16]
  else []

/-- Units for the characters `cs`, the first of which lies in field `i`; the field
index is the number of commas seen so far. -/
def refUnitsFrom (model : List Nat) : Nat → List Nat → List Nat
  | _, [] => []
  | i, c :: cs =>
    refCharUnits (model.getD i 0) c ++ refUnitsFrom model (if c = 0x2C then i + 1 else i) cs

/-- The reference unit list `U(s)` of a sentence of kind `k`: the kind identifier,
then the units of every character after the 7-character header. -/
def refUnits (k : Nat) (s : List Nat) : List Nat :=
  k :: refUnitsFrom (neModel k) 0 (s.drop 7)

/-- Packing of a unit list into `n` bytes: unit `2 * i` is the low nibble of byte
`i`, unit `2 * i + 1` its high nibble, and a unit past the end of the list is 0. -/
def pack (n : Nat) (us : List Nat) : List Nat :=
  (List.range n).map fun i => us.getD (2 * i) 0 + 16 * us.getD (2 * i + 1) 0

/-- The state of `nmea_encode`, for a sentence of type `neType`, once the type
unit is written and the characters `pre` that follow the header are processed:
the state on entry to the loop iteration of the next character. -/
def stateBefore (neType : Nat) (neRecord pre : List Nat) : Option EncState :=
  match nmea_setquartet (toUChar neType) neRecord 0 with
  | none => none
  | some r1 => nmea_encode_loop neType pre ⟨r1, 0, 1⟩

/-- Number of units of a field with model tag `tag`: 1 for `'Q'`, 2 otherwise. -/
def tagWidth (tag : Nat) : Nat := if tag = 0x51 then 1 else 2

/-- The sum, over every character of `rest`, of the width of the tag of the field
the character belongs to (the field index is the number of commas before it). -/
def widthSum (model rest : List Nat) : Nat :=
  ((List.range rest.length).map fun i =>
    tagWidth (model.getD ((rest.take i).count 0x2C) 0)).sum

/-- Every character of `cs`, the first of which lies in field `p`, has its field
index below the bound `len`. -/
def FieldsInside (len p : Nat) (cs : List Nat) : Prop :=
  ∀ i, i < cs.length → p + (cs.take i).count 0x2C < len

/-- Bytewise bitwise OR of two records. -/
def orBytes (a b : List Nat) : List Nat := List.zipWith (· ||| ·) a b

/-- The state `st` with the record `r` OR-ed bytewise into its record. -/
def orInto (r : List Nat) (st : EncState) : EncState :=
  ⟨orBytes r st.neRecord, st.nePointer, st.neOffset⟩

/-- Content units of one non-comma character `c` of a field with model tag `tag`,
with no terminator: one unit in a `'Q'` field (the digit value, or
`(c - 0x20) mod 16`), the two nibbles of `c`, low first, otherwise. -/
def contentUnits (tag c : Nat) : List Nat :=
  if tag = 0x51 then
    [if 0x30 ≤ c ∧ c ≤ 0x39 then c - 0x30 else (((c : Int) - 0x20) % 16).toNat]
  else [c % 16, c / 16]

/-! # Theorems -/

/-! ## Bit-level facts -/

theorem or_low (b q : Nat) : ((b ||| (q % 16)) % 256) % 16 = (b % 16) ||| (q % 16) := by
  apply Nat.eq_of_testBit_eq
  intro i
  have h16 : (16 : Nat) = 2 ^ 4 := by norm_num
  have h256 : (256 : Nat) = 2 ^ 8 := by norm_num
  simp only [h16, h256, Nat.testBit_mod_two_pow, Nat.testBit_or]
  by_cases h : i < 4
  · have : i < 8 := by omega
    simp [h, this]
  · simp [h]

theorem or_high (b q : Nat) :
    (((b ||| ((q % 16) <<< 4)) % 256) >>> 4) % 16 = ((b >>> 4) % 16) ||| (q % 16) := by
  apply Nat.eq_of_testBit_eq
  intro i
  have h16 : (16 : Nat) = 2 ^ 4 := by norm_num
  have h256 : (256 : Nat) = 2 ^ 8 := by norm_num
  simp only [h16, h256, Nat.testBit_mod_two_pow, Nat.testBit_or, Nat.testBit_shiftRight,
    Nat.testBit_shiftLeft]
  by_cases h : i < 4
  · have : 4 + i < 8 := by omega
    simp [h, this]
  · simp [h]

theorem or_low_keeps_high (b q : Nat) :
    (((b ||| (q % 16)) % 256) >>> 4) % 16 = (b >>> 4) % 16 := by
  apply Nat.eq_of_testBit_eq
  intro i
  have h16 : (16 : Nat) = 2 ^ 4 := by norm_num
  have h256 : (256 : Nat) = 2 ^ 8 := by norm_num
  simp only [h16, h256, Nat.testBit_mod_two_pow, Nat.testBit_or, Nat.testBit_shiftRight,
    Nat.testBit_shiftLeft]
  by_cases h : i < 4
  · have : 4 + i < 8 := by omega
    have h2 : ¬ (4 + i < 4) := by omega
    simp [h, this, h2]
  · simp [h]

theorem or_high_keeps_low (b q : Nat) :
    ((b ||| ((q % 16) <<< 4)) % 256) % 16 = b % 16 := by
  apply Nat.eq_of_testBit_eq
  intro i
  have h16 : (16 : Nat) = 2 ^ 4 := by norm_num
  have h256 : (256 : Nat) = 2 ^ 8 := by norm_num
  simp only [h16, h256, Nat.testBit_mod_two_pow, Nat.testBit_or, Nat.testBit_shiftRight,
    Nat.testBit_shiftLeft]
  by_cases h : i < 4
  · have : i < 8 := by omega
    have h2 : ¬ (4 ≤ i) := by omega
    simp [h, this, h2]
  · simp [h]

theorem or_shift_add (u x : Nat) (hu : u < 16) : u ||| (x <<< 4) = u + 16 * x := by
  have := @Nat.mul_add_lt_is_or 4 u (by simpa using hu) x
  rw [Nat.shiftLeft_eq, Nat.or_comm, Nat.mul_comm, ← this]; omega

theorem or_fifteen (u : Nat) : (u % 16) ||| (15 % 16) = 15 := by
  apply Nat.eq_of_testBit_eq
  intro i
  have h16 : (16 : Nat) = 2 ^ 4 := by norm_num
  have h15 : (15 : Nat) = 15 % 2 ^ 4 := by norm_num
  rw [h16]
  conv_rhs => rw [h15]
  simp only [Nat.testBit_mod_two_pow, Nat.testBit_or]
  by_cases h : i < 4
  · interval_cases i <;> simp [Nat.testBit]
  · simp [h]

/-! ## Effect of `nmea_setquartet` -/

theorem setquartet_eq_some {q off : Nat} {r r' : List Nat}
    (h : nmea_setquartet q r off = some r') :
    off / 2 < r.length ∧
      r' = r.set (off / 2) ((r.getD (off / 2) 0 ||| ((q % 16) <<< ((off % 2) * 4))) % 256) := by
  unfold nmea_setquartet at h
  rw [Nat.shiftRight_eq_div_pow] at h
  simp only [pow_one] at h
  split at h
  · rename_i hlt
    refine ⟨hlt, ?_⟩
    simp only [Option.some.injEq] at h
    rw [← h, List.getD_eq_getElem _ _ hlt]
  · cases h

theorem setquartet_isSome (q off : Nat) (r : List Nat) (h : off / 2 < r.length) :
    ∃ r', nmea_setquartet q r off = some r' := by
  unfold nmea_setquartet
  rw [Nat.shiftRight_eq_div_pow]
  simp only [pow_one]
  rw [dif_pos h]
  exact ⟨_, rfl⟩

theorem setquartet_eq_none {q off : Nat} {r : List Nat} (h : ¬ off / 2 < r.length) :
    nmea_setquartet q r off = none := by
  unfold nmea_setquartet
  rw [Nat.shiftRight_eq_div_pow]
  simp only [pow_one]
  rw [dif_neg h]

theorem setquartet_length {q off : Nat} {r r' : List Nat}
    (h : nmea_setquartet q r off = some r') : r'.length = r.length := by
  rw [(setquartet_eq_some h).2, List.length_set]

theorem setquartet_getElem? {q off : Nat} {r r' : List Nat}
    (h : nmea_setquartet q r off = some r') (i : Nat) (hi : i ≠ off / 2) :
    r'[i]? = r[i]? := by
  rw [(setquartet_eq_some h).2, List.getElem?_set_ne (Ne.symm hi)]

theorem setquartet_unitAt {q off : Nat} {r r' : List Nat}
    (h : nmea_setquartet q r off = some r') (j : Nat) :
    unitAt r' j = if j = off then unitAt r off ||| (q % 16) else unitAt r j := by
  obtain ⟨hlt, hr⟩ := setquartet_eq_some h
  unfold unitAt
  by_cases hb : j / 2 = off / 2
  · have hget : r'.getD (j / 2) 0
        = (r.getD (off / 2) 0 ||| ((q % 16) <<< ((off % 2) * 4))) % 256 := by
      rw [hr, hb, List.getD_eq_getElem?_getD, List.getElem?_set_self hlt]; rfl
    rw [hget]
    rcases Nat.mod_two_eq_zero_or_one j with hj | hj <;>
      rcases Nat.mod_two_eq_zero_or_one off with ho | ho
    · have : j = off := by omega
      subst this
      simp only [hj, Nat.zero_mul, Nat.shiftRight_zero, Nat.shiftLeft_zero, if_true]
      exact or_low _ _
    · have : j ≠ off := by omega
      simp only [hj, ho, this, Nat.zero_mul, Nat.shiftRight_zero, Nat.one_mul, if_false, hb]
      exact or_high_keeps_low _ _
    · have : j ≠ off := by omega
      simp only [hj, ho, this, Nat.zero_mul, Nat.shiftLeft_zero, Nat.one_mul, if_false, hb]
      exact or_low_keeps_high _ _
    · have : j = off := by omega
      subst this
      simp only [hj, Nat.one_mul, if_true]
      exact or_high _ _
  · have hne : j ≠ off := fun e => hb (by rw [e])
    rw [if_neg hne, List.getD_eq_getElem?_getD, List.getD_eq_getElem?_getD,
      setquartet_getElem? h _ hb]

/-! ## Sequences of writes -/

theorem writeUnits_append (a b : List Nat) (r : List Nat) (off : Nat) :
    writeUnits (a ++ b) r off =
      match writeUnits a r off with
      | none => none
      | some r1 => writeUnits b r1 (off + a.length) := by
  induction a generalizing r off with
  | nil => simp [writeUnits]
  | cons q qs ih =>
    rw [List.cons_append]
    simp only [writeUnits, List.length_cons]
    cases hq : nmea_setquartet q r off with
    | none => simp
    | some r1 =>
      have : off + (qs.length + 1) = off + 1 + qs.length := by omega
      simp only [this, ih]

theorem writeUnits_length {qs r r' : List Nat} {off : Nat}
    (h : writeUnits qs r off = some r') : r'.length = r.length := by
  induction qs generalizing r off with
  | nil => simp only [writeUnits, Option.some.injEq] at h; rw [h]
  | cons q qs ih =>
    simp only [writeUnits] at h
    cases hq : nmea_setquartet q r off with
    | none => rw [hq] at h; cases h
    | some r1 =>
      rw [hq] at h
      rw [ih h, setquartet_length hq]

theorem writeUnits_bound {qs r r' : List Nat} {off : Nat}
    (h : writeUnits qs r off = some r') (hne : qs ≠ []) : off + qs.length ≤ 2 * r.length := by
  induction qs generalizing r off with
  | nil => exact absurd rfl hne
  | cons q qs ih =>
    simp only [writeUnits] at h
    cases hq : nmea_setquartet q r off with
    | none => rw [hq] at h; cases h
    | some r1 =>
      rw [hq] at h
      have hlt := (setquartet_eq_some hq).1
      have hlen := setquartet_length hq
      by_cases hqs : qs = []
      · subst hqs; simp only [List.length_cons, List.length_nil]; omega
      · have := ih h hqs
        simp only [List.length_cons]; omega

theorem writeUnits_isSome (qs r : List Nat) (off : Nat)
    (h : off + qs.length ≤ 2 * r.length) : ∃ r', writeUnits qs r off = some r' := by
  induction qs generalizing r off with
  | nil => exact ⟨r, rfl⟩
  | cons q qs ih =>
    simp only [List.length_cons] at h
    obtain ⟨r1, hq⟩ := setquartet_isSome q off r (by omega)
    simp only [writeUnits, hq]
    exact ih r1 (off + 1) (by rw [setquartet_length hq]; omega)

theorem writeUnits_getElem? {qs r r' : List Nat} {off : Nat}
    (h : writeUnits qs r off = some r') (i : Nat)
    (hi : 2 * i + 1 < off ∨ off + qs.length ≤ 2 * i) : r'[i]? = r[i]? := by
  induction qs generalizing r off with
  | nil => simp only [writeUnits, Option.some.injEq] at h; rw [h]
  | cons q qs ih =>
    simp only [writeUnits] at h
    cases hq : nmea_setquartet q r off with
    | none => rw [hq] at h; cases h
    | some r1 =>
      rw [hq] at h
      simp only [List.length_cons] at hi
      rw [ih h (by omega), setquartet_getElem? hq i (by omega)]

theorem writeUnits_unitAt_outside {qs r r' : List Nat} {off : Nat}
    (h : writeUnits qs r off = some r') (j : Nat)
    (hj : j < off ∨ off + qs.length ≤ j) : unitAt r' j = unitAt r j := by
  induction qs generalizing r off with
  | nil => simp only [writeUnits, Option.some.injEq] at h; rw [h]
  | cons q qs ih =>
    simp only [writeUnits] at h
    cases hq : nmea_setquartet q r off with
    | none => rw [hq] at h; cases h
    | some r1 =>
      rw [hq] at h
      simp only [List.length_cons] at hj
      rw [ih h (by omega), setquartet_unitAt hq j, if_neg (by omega)]

theorem writeUnits_unitAt_inside {qs r r' : List Nat} {off : Nat}
    (h : writeUnits qs r off = some r') (i : Nat) (hi : i < qs.length) :
    unitAt r' (off + i) = unitAt r (off + i) ||| (qs.getD i 0 % 16) := by
  induction qs generalizing r off i with
  | nil => simp at hi
  | cons q qs ih =>
    simp only [writeUnits] at h
    cases hq : nmea_setquartet q r off with
    | none => rw [hq] at h; cases h
    | some r1 =>
      rw [hq] at h
      cases i with
      | zero =>
        rw [writeUnits_unitAt_outside h _ (Or.inl (by omega)), setquartet_unitAt hq]
        simp
      | succ i =>
        simp only [List.length_cons, Nat.add_lt_add_iff_right] at hi
        have := ih h i hi
        have e : off + (i + 1) = off + 1 + i := by omega
        rw [e, this, setquartet_unitAt hq, if_neg (by omega)]
        simp

/-! ## The loop as a sequence of writes -/

theorem body_eq (k c : Nat) (st : EncState) :
    nmea_encode_body k c st =
      match modelAt k st.nePointer with
      | none => none
      | some tag =>
        match writeUnits (bodyUnits tag c) st.neRecord st.neOffset with
        | none => none
        | some r => some ⟨r, st.nePointer + (if c = 0x2C then 1 else 0),
            st.neOffset + (bodyUnits tag c).length⟩ := by
  unfold nmea_encode_body bodyUnits
  cases modelAt k st.nePointer with
  | none => simp
  | some tag =>
    by_cases hc : c = 0x2C <;> by_cases ht : tag = 0x51
    · simp only [hc, ht, if_true, writeUnits]
      cases nmea_setquartet 15 st.neRecord st.neOffset <;> rfl
    · simp only [hc, ht, if_true, if_false, writeUnits]
      cases nmea_setquartet 15 st.neRecord st.neOffset with
      | none => rfl
      | some r1 =>
        simp only
        cases nmea_setquartet 15 r1 (st.neOffset + 1) <;> rfl
    · by_cases hd : 0x30 ≤ c ∧ c < 0x3A
      · simp only [hc, ht, hd, if_true, if_false, writeUnits, and_self]
        cases nmea_setquartet _ st.neRecord st.neOffset <;> rfl
      · simp only [hc, ht, hd, if_true, if_false, writeUnits]
        cases nmea_setquartet _ st.neRecord st.neOffset <;> rfl
    · simp only [hc, ht, if_false, writeUnits]
      cases nmea_setquartet _ st.neRecord st.neOffset with
      | none => rfl
      | some r1 =>
        simp only
        cases nmea_setquartet _ r1 (st.neOffset + 1) <;> rfl

theorem loop_eq (k : Nat) (cs : List Nat) (st : EncState) :
    nmea_encode_loop k cs st =
      match loopUnits k st.nePointer cs with
      | none => none
      | some us =>
        match writeUnits us st.neRecord st.neOffset with
        | none => none
        | some r => some ⟨r, st.nePointer + cs.count 0x2C, st.neOffset + us.length⟩ := by
  induction cs generalizing st with
  | nil => simp [nmea_encode_loop, loopUnits, writeUnits]
  | cons c cs ih =>
    simp only [nmea_encode_loop, loopUnits, body_eq]
    cases hm : modelAt k st.nePointer with
    | none => simp
    | some tag =>
      simp only
      cases hl : loopUnits k (st.nePointer + if c = 0x2C then 1 else 0) cs with
      | none =>
        cases hw : writeUnits (bodyUnits tag c) st.neRecord st.neOffset with
        | none => simp
        | some r1 => simp only [ih, hl]
      | some us =>
        simp only [writeUnits_append]
        cases hw : writeUnits (bodyUnits tag c) st.neRecord st.neOffset with
        | none => simp
        | some r1 =>
          simp only [ih, hl]
          cases writeUnits us r1 (st.neOffset + (bodyUnits tag c).length) with
          | none => simp
          | some r2 =>
            simp only [List.length_append, List.count_cons, Option.some.injEq, EncState.mk.injEq,
              true_and]
            constructor
            · by_cases hc : c = 0x2C <;> simp [hc]; omega
            · omega

/-! ## Detection of the sentence type -/

theorem strstr_isSome_iff (hay needle : List Nat) :
    (strstr hay needle).isSome = true ↔ needle <:+: hay := by
  induction hay with
  | nil =>
    unfold strstr
    by_cases h : needle.isPrefixOf [] = true
    · simp only [h, if_true, Option.isSome_some, true_iff]
      exact (List.isPrefixOf_iff_prefix.mp h).isInfix
    · simp only [h, if_false, Option.isSome_none, Bool.false_eq_true, false_iff]
      intro hin
      have : needle = [] := List.eq_nil_of_infix_nil hin
      subst this
      simp at h
  | cons a t ih =>
    unfold strstr
    by_cases h : needle.isPrefixOf (a :: t) = true
    · simp only [h, if_true, Option.isSome_some, true_iff]
      exact (List.isPrefixOf_iff_prefix.mp h).isInfix
    · simp only [h, Bool.false_eq_true, if_false, Option.isSome_map']
      rw [ih, List.infix_cons_iff]
      constructor
      · exact Or.inr
      · rintro (hp | hi)
        · exact absurd (List.isPrefixOf_iff_prefix.mpr hp) h
        · exact hi

theorem type_lt_iff (s : List Nat) : nmea_encode_type s < IDENT_MAX ↔ HasToken s := by
  unfold nmea_encode_type HasToken
  simp only [← strstr_isSome_iff]
  cases (strstr s TOKEN_RMC).isSome <;> cases (strstr s TOKEN_GGA).isSome <;>
    cases (strstr s TOKEN_GSA).isSome <;> cases (strstr s TOKEN_VTG).isSome <;>
    simp [IDENT_RMC, IDENT_GGA, IDENT_GSA, IDENT_VTG, IDENT_FAI, IDENT_MAX]

theorem type_eq_fai_iff (s : List Nat) : nmea_encode_type s = IDENT_FAI ↔ ¬ HasToken s := by
  unfold nmea_encode_type HasToken
  simp only [← strstr_isSome_iff]
  cases (strstr s TOKEN_RMC).isSome <;> cases (strstr s TOKEN_GGA).isSome <;>
    cases (strstr s TOKEN_GSA).isSome <;> cases (strstr s TOKEN_VTG).isSome <;>
    simp [IDENT_RMC, IDENT_GGA, IDENT_GSA, IDENT_VTG, IDENT_FAI, IDENT_MAX]

/-! ## Writes into a packed record -/

theorem pack_length (n : Nat) (us : List Nat) : (pack n us).length = n := by
  simp [pack]

theorem pack_nil (n : Nat) : pack n [] = List.replicate n 0 := by
  apply List.ext_getElem
  · simp [pack]
  · intro i h1 h2
    simp [pack]

theorem getD_append_singleton (us : List Nat) (q j : Nat) :
    (us ++ [q]).getD j 0 = if j = us.length then q else us.getD j 0 := by
  simp only [List.getD_eq_getElem?_getD]
  by_cases h : j < us.length
  · rw [List.getElem?_append_left h, if_neg (by omega)]
  · rw [List.getElem?_append_right (by omega)]
    by_cases h2 : j = us.length
    · simp [h2]
    · have e : us[j]? = none := List.getElem?_eq_none (by omega)
      have e2 : [q][j - us.length]? = none := List.getElem?_eq_none (by simp; omega)
      simp [h2, e, e2]

theorem setquartet_pack (n q : Nat) (us : List Nat) (hus : ∀ u ∈ us, u < 16)
    (hlen : us.length < 2 * n) :
    nmea_setquartet q (pack n us) us.length = some (pack n (us ++ [q % 16])) := by
  have hlt : us.length / 2 < (pack n us).length := by rw [pack_length]; omega
  obtain ⟨r', hr'⟩ := setquartet_isSome q _ _ hlt
  rw [hr']
  congr 1
  rw [(setquartet_eq_some hr').2]
  apply List.ext_getElem
  · simp [pack]
  · intro j h1 h2
    have hj : j < n := by simpa [pack] using h2
    rw [List.getElem_set]
    have hout : ∀ m, us.length ≤ m → us.getD m 0 = 0 := by
      intro m hm
      rw [List.getD_eq_getElem?_getD, List.getElem?_eq_none hm]; rfl
    by_cases hb : us.length / 2 = j
    · rw [if_pos hb]
      have hold : (pack n us).getD (us.length / 2) 0
          = us.getD (2 * j) 0 + 16 * us.getD (2 * j + 1) 0 := by
        rw [List.getD_eq_getElem _ _ hlt]
        simp [pack, hb]
      rw [hold]
      simp only [pack, List.getElem_map, List.getElem_range, getD_append_singleton]
      rcases Nat.mod_two_eq_zero_or_one us.length with he | he
      · have e : 2 * j = us.length := by omega
        rw [hout (2 * j) (by omega), hout (2 * j + 1) (by omega), if_pos e, if_neg (by omega), he]
        simp only [Nat.zero_mul, Nat.shiftLeft_zero, Nat.mul_zero, Nat.add_zero, Nat.zero_or]
        omega
      · have e : 2 * j + 1 = us.length := by omega
        have hu : us.getD (2 * j) 0 < 16 := by
          rw [List.getD_eq_getElem _ _ (by omega)]
          exact hus _ (List.getElem_mem _)
        rw [hout (2 * j + 1) (by omega), if_neg (by omega), if_pos e, he]
        simp only [Nat.one_mul, Nat.mul_zero, Nat.add_zero]
        rw [or_shift_add _ _ hu]
        omega
    · rw [if_neg hb]
      simp only [pack, List.getElem_map, List.getElem_range, getD_append_singleton]
      rw [if_neg (by omega), if_neg (by omega)]

theorem writeUnits_pack (n : Nat) (qs us : List Nat) (hus : ∀ u ∈ us, u < 16)
    (hlen : us.length + qs.length ≤ 2 * n) :
    writeUnits qs (pack n us) us.length = some (pack n (us ++ qs.map (· % 16))) := by
  induction qs generalizing us with
  | nil => simp [writeUnits]
  | cons q qs ih =>
    simp only [List.length_cons] at hlen
    simp only [writeUnits, setquartet_pack n q us hus (by omega)]
    have h2 : ∀ u ∈ us ++ [q % 16], u < 16 := by
      intro u hu
      rcases List.mem_append.mp hu with h | h
      · exact hus u h
      · simp only [List.mem_singleton] at h; omega
    have := ih (us ++ [q % 16]) h2 (by simp only [List.length_append, List.length_singleton]; omega)
    simp only [List.length_append, List.length_singleton] at this
    rw [this]
    simp

/-! ## The loop against the reference unit list -/

theorem model_tags (k : Nat) (hk : k < 4) : ∀ x ∈ neModel k, x = 0x51 ∨ x = 0x42 := by
  interval_cases k <;> decide

theorem modelAt_inside (k p : Nat) (hk : k < 4) (hp : p < (neModel k).length) :
    modelAt k p = some ((neModel k).getD p 0) ∧
      ((neModel k).getD p 0 = 0x51 ∨ (neModel k).getD p 0 = 0x42) := by
  constructor
  · unfold modelAt
    rw [if_pos (by simpa [IDENT_MAX] using hk), if_pos hp, List.getD_eq_getElem _ _ hp,
      List.getElem?_eq_getElem hp]
  · rw [List.getD_eq_getElem _ _ hp]
    exact model_tags k hk _ (List.getElem_mem _)

theorem bodyUnits_ref (tag c : Nat) (hc : c < 256) (ht : tag = 0x51 ∨ tag = 0x42) :
    (bodyUnits tag c).map (· % 16) = refCharUnits tag c := by
  unfold bodyUnits refCharUnits toUChar
  rcases ht with rfl | rfl
  · by_cases h1 : c = 0x2C
    · simp [h1]
    · by_cases h2 : 0x30 ≤ c ∧ c < 0x3A
      · have h3 : 0x30 ≤ c ∧ c ≤ 0x39 := by omega
        simp only [h1, h2, h3, if_true, if_false, and_self, List.map_cons, List.map_nil]
        congr 1
        omega
      · have h3 : ¬ (0x30 ≤ c ∧ c ≤ 0x39) := by omega
        simp only [h1, h2, h3, if_true, if_false, List.map_cons, List.map_nil]
        congr 1
        omega
  · by_cases h1 : c = 0x2C
    · simp [h1]
    · simp only [h1, if_false, Nat.reduceEqDiff, if_true, List.map_cons, List.map_nil,
        Nat.shiftRight_eq_div_pow]
      congr 1
      · omega
      · congr 1
        omega

theorem fieldsInside_cons {len p c : Nat} {cs : List Nat} (h : FieldsInside len p (c :: cs)) :
    p < len ∧ FieldsInside len (p + if c = 0x2C then 1 else 0) cs := by
  constructor
  · have := h 0 (by simp)
    simpa using this
  · intro i hi
    have := h (i + 1) (by simp; omega)
    rw [List.take_succ_cons, List.count_cons] at this
    by_cases hc : c = 0x2C
    · simp only [hc, if_true, beq_self_eq_true] at this ⊢; omega
    · have hb : (c == 0x2C) = false := by simpa using hc
      simp only [hc, hb, if_false] at this ⊢; omega

theorem fieldsInside_of_count {len : Nat} {cs : List Nat} (h : cs.count 0x2C < len) :
    FieldsInside len 0 cs := by
  intro i _
  have : (cs.take i).count 0x2C ≤ cs.count 0x2C :=
    List.Sublist.count_le (List.take_sublist i cs) _
  omega

theorem loopUnits_ref (k : Nat) (hk : k < 4) (cs : List Nat) (p : Nat)
    (hbytes : ∀ c ∈ cs, c < 256) (hin : FieldsInside (neModel k).length p cs) :
    ∃ us, loopUnits k p cs = some us ∧ us.map (· % 16) = refUnitsFrom (neModel k) p cs := by
  induction cs generalizing p with
  | nil => exact ⟨[], rfl, rfl⟩
  | cons c cs ih =>
    obtain ⟨hp, hin'⟩ := fieldsInside_cons hin
    obtain ⟨hm, htag⟩ := modelAt_inside k p hk hp
    obtain ⟨us, hus, href⟩ := ih (p + if c = 0x2C then 1 else 0)
      (fun x hx => hbytes x (List.mem_cons_of_mem _ hx)) hin'
    refine ⟨bodyUnits ((neModel k).getD p 0) c ++ us, ?_, ?_⟩
    · simp only [loopUnits, hm, hus]
    · rw [List.map_append, href, bodyUnits_ref _ _ (hbytes c (List.mem_cons_self _ _)) htag]
      simp only [refUnitsFrom]
      by_cases h : c = 0x2C <;> simp [h]

theorem encode_eq (s r : List Nat) (hk : nmea_encode_type s < 4) :
    nmea_encode s r =
      match loopUnits (nmea_encode_type s) 0 (s.drop 7) with
      | none => none
      | some us =>
        match writeUnits (toUChar (nmea_encode_type s) :: us) r 0 with
        | none => none
        | some r' => some ⟨r', (s.drop 7).count 0x2C, 1 + us.length⟩ := by
  unfold nmea_encode
  rw [if_pos (by simpa [IDENT_MAX] using hk)]
  simp only [writeUnits, loop_eq]
  cases hq : nmea_setquartet (toUChar (nmea_encode_type s)) r 0 with
  | none => cases loopUnits (nmea_encode_type s) 0 (s.drop 7) <;> simp
  | some r1 =>
    simp only [Nat.zero_add]

/-- A recognized sentence whose characters after the header all have their field
index inside the model is encoded, into a large enough all-zero record, as the
packing of its reference unit list. -/
theorem encode_eq_pack (s : List Nat) (n : Nat) (hk4 : nmea_encode_type s < 4)
    (hbytes : ∀ c ∈ s, c < 256)
    (hin : FieldsInside (neModel (nmea_encode_type s)).length 0 (s.drop 7))
    (hcap : (refUnits (nmea_encode_type s) s).length ≤ 2 * n) :
    nmea_encode s (List.replicate n 0) =
      some ⟨pack n (refUnits (nmea_encode_type s) s), (s.drop 7).count 0x2C,
        (refUnits (nmea_encode_type s) s).length⟩ := by
  obtain ⟨us, hus, href⟩ := loopUnits_ref _ hk4 (s.drop 7) 0
    (fun c hc => hbytes c (List.mem_of_mem_drop hc)) hin
  have hlen : us.length = (refUnitsFrom (neModel (nmea_encode_type s)) 0 (s.drop 7)).length := by
    rw [← href, List.length_map]
  have hw := writeUnits_pack n (toUChar (nmea_encode_type s) :: us) [] (by simp)
    (by simp only [refUnits, List.length_cons] at hcap
        simp only [List.length_nil, List.length_cons, hlen]; omega)
  have hu : toUChar (nmea_encode_type s) % 16 = nmea_encode_type s := by
    unfold toUChar; omega
  rw [encode_eq s _ hk4, hus]
  simp only [pack_nil, List.length_nil, List.nil_append, List.map_cons, href, hu] at hw
  simp only [hw, refUnits, List.length_cons, hlen]
  congr 2
  omega

theorem tokenTable_kind_lt {t : List Nat} {k : Nat} (ht : (t, k) ∈ tokenTable) : k < 4 := by
  simp only [tokenTable, List.mem_cons, Prod.mk.injEq, List.mem_singleton, List.not_mem_nil,
    or_false] at ht
  rcases ht with ⟨_, rfl⟩ | ⟨_, rfl⟩ | ⟨_, rfl⟩ | ⟨_, rfl⟩ <;> decide

/-! ## Splitting the loop at a character -/

theorem loop_append (k : Nat) (a b : List Nat) (st : EncState) :
    nmea_encode_loop k (a ++ b) st =
      match nmea_encode_loop k a st with
      | none => none
      | some m => nmea_encode_loop k b m := by
  induction a generalizing st with
  | nil => simp [nmea_encode_loop]
  | cons c cs ih =>
    rw [List.cons_append]
    simp only [nmea_encode_loop]
    cases nmea_encode_body k c st with
    | none => rfl
    | some st1 => exact ih st1

theorem encode_eq_stateBefore (s r : List Nat) (hk : nmea_encode_type s < 4) :
    nmea_encode s r = stateBefore (nmea_encode_type s) r (s.drop 7) := by
  unfold nmea_encode stateBefore
  rw [if_pos (by simpa [IDENT_MAX] using hk)]

theorem stateBefore_eq (k : Nat) (r pre : List Nat) :
    stateBefore k r pre =
      match loopUnits k 0 pre with
      | none => none
      | some us =>
        match writeUnits (toUChar k :: us) r 0 with
        | none => none
        | some r' => some ⟨r', pre.count 0x2C, 1 + us.length⟩ := by
  unfold stateBefore
  simp only [writeUnits, loop_eq]
  cases hq : nmea_setquartet (toUChar k) r 0 with
  | none => cases loopUnits k 0 pre <;> simp
  | some r1 =>
    simp only [Nat.zero_add]

theorem stateBefore_some {k : Nat} {r pre : List Nat} {st : EncState}
    (h : stateBefore k r pre = some st) :
    ∃ us, loopUnits k 0 pre = some us ∧ writeUnits (toUChar k :: us) r 0 = some st.neRecord ∧
      st.nePointer = pre.count 0x2C ∧ st.neOffset = 1 + us.length := by
  rw [stateBefore_eq] at h
  cases hl : loopUnits k 0 pre with
  | none => simp [hl] at h
  | some us =>
    simp only [hl] at h
    cases hw : writeUnits (toUChar k :: us) r 0 with
    | none => simp [hw] at h
    | some r' =>
      simp only [hw, Option.some.injEq] at h
      subst h
      exact ⟨us, rfl, hw, rfl, rfl⟩

theorem stateBefore_split {k : Nat} {r pre post : List Nat} {c : Nat} {fin : EncState}
    (h : stateBefore k r (pre ++ c :: post) = some fin) :
    ∃ mid aft, stateBefore k r pre = some mid ∧ nmea_encode_body k c mid = some aft ∧
      stateBefore k r (pre ++ [c]) = some aft ∧ nmea_encode_loop k post aft = some fin := by
  unfold stateBefore at h ⊢
  cases hq : nmea_setquartet (toUChar k) r 0 with
  | none => simp [hq] at h
  | some r1 =>
    simp only [hq, loop_append] at h ⊢
    cases hm : nmea_encode_loop k pre ⟨r1, 0, 1⟩ with
    | none => simp [hm] at h
    | some mid =>
      simp only [hm, nmea_encode_loop] at h ⊢
      cases hb : nmea_encode_body k c mid with
      | none => simp [hb] at h
      | some aft =>
        simp only [hb] at h
        exact ⟨mid, aft, rfl, hb, rfl, h⟩

theorem body_some {k c : Nat} {st aft : EncState} (h : nmea_encode_body k c st = some aft) :
    ∃ tag, modelAt k st.nePointer = some tag ∧
      writeUnits (bodyUnits tag c) st.neRecord st.neOffset = some aft.neRecord ∧
      aft.nePointer = st.nePointer + (if c = 0x2C then 1 else 0) ∧
      aft.neOffset = st.neOffset + (bodyUnits tag c).length := by
  rw [body_eq] at h
  cases hm : modelAt k st.nePointer with
  | none => simp [hm] at h
  | some tag =>
    simp only [hm] at h
    cases hw : writeUnits (bodyUnits tag c) st.neRecord st.neOffset with
    | none => simp [hw] at h
    | some r' =>
      simp only [hw, Option.some.injEq] at h
      subst h
      exact ⟨tag, rfl, hw, rfl, rfl⟩

theorem loop_some {k : Nat} {cs : List Nat} {st fin : EncState}
    (h : nmea_encode_loop k cs st = some fin) :
    ∃ us, loopUnits k st.nePointer cs = some us ∧
      writeUnits us st.neRecord st.neOffset = some fin.neRecord ∧
      fin.nePointer = st.nePointer + cs.count 0x2C ∧ fin.neOffset = st.neOffset + us.length := by
  rw [loop_eq] at h
  cases hl : loopUnits k st.nePointer cs with
  | none => simp [hl] at h
  | some us =>
    simp only [hl] at h
    cases hw : writeUnits us st.neRecord st.neOffset with
    | none => simp [hw] at h
    | some r' =>
      simp only [hw, Option.some.injEq] at h
      subst h
      exact ⟨us, rfl, hw, rfl, rfl⟩

/-- Effect of the character `c` that follows `pre` on the final record: the units
it writes are those of `bodyUnits`, OR-ed into the units of the initial record at
the offsets the cursor had when `c` was reached. -/
theorem char_effect {k : Nat} {r pre post : List Nat} {c : Nat} {fin : EncState}
    (h : stateBefore k r (pre ++ c :: post) = some fin) :
    ∃ mid aft tag, stateBefore k r pre = some mid ∧ stateBefore k r (pre ++ [c]) = some aft ∧
      mid.nePointer = pre.count 0x2C ∧ 1 ≤ mid.neOffset ∧
      modelAt k (pre.count 0x2C) = some tag ∧
      aft.nePointer = mid.nePointer + (if c = 0x2C then 1 else 0) ∧
      aft.neOffset = mid.neOffset + (bodyUnits tag c).length ∧
      ∀ i, i < (bodyUnits tag c).length →
        unitAt fin.neRecord (mid.neOffset + i) =
          unitAt r (mid.neOffset + i) ||| ((bodyUnits tag c).getD i 0 % 16) := by
  obtain ⟨mid, aft, hmid, hbody, haft, hpost⟩ := stateBefore_split h
  obtain ⟨us, _, hw, hp, ho⟩ := stateBefore_some hmid
  obtain ⟨tag, hm, hwb, hpa, hoa⟩ := body_some hbody
  obtain ⟨us2, _, hw2, _, _⟩ := loop_some hpost
  refine ⟨mid, aft, tag, hmid, haft, hp, by omega, by rw [← hp]; exact hm, hpa, hoa, ?_⟩
  intro i hi
  rw [writeUnits_unitAt_outside hw2 _ (Or.inl (by omega)), writeUnits_unitAt_inside hwb i hi,
    writeUnits_unitAt_outside hw _ (Or.inr (by simp only [List.length_cons]; omega))]

theorem unitAt_zero (r : List Nat) (hz : ∀ b ∈ r, b = 0) (j : Nat) : unitAt r j = 0 := by
  unfold unitAt
  have : r.getD (j / 2) 0 = 0 := by
    rw [List.getD_eq_getElem?_getD]
    cases hg : r[j / 2]? with
    | none => rfl
    | some b => exact hz b (List.getElem?_mem hg)
  rw [this]; simp

theorem modelAt_of_getElem? {k p tag : Nat} (hk : k < 4) (h : (neModel k)[p]? = some tag) :
    modelAt k p = some tag := by
  have hp : p < (neModel k).length := by
    by_contra hn
    rw [List.getElem?_eq_none (by omega)] at h
    cases h
  unfold modelAt
  rw [if_pos (by simpa [IDENT_MAX] using hk), if_pos hp, h]

/-- C1: a sentence that begins with one of the four tokens and is detected as that
token's kind `k`, with fewer commas after the 7-character header than the model of
`k` has tags, is encoded into a large enough all-zero record as the packing of
the reference unit list `U(s)`: the call succeeds, the record it leaves is
`pack n (refUnits k s)` and `length (U(s))` units are written. -/
theorem encode_refines_layout (s t : List Nat) (k n : Nat)
    (ht : (t, k) ∈ tokenTable) (_hpre : t <+: s) (hk : nmea_encode_type s = k)
    (hbytes : ∀ c ∈ s, c < 256)
    (hcommas : (s.drop 7).count 0x2C < (neModel k).length)
    (hcap : (refUnits k s).length ≤ 2 * n) :
    nmea_encode s (List.replicate n 0) =
      some ⟨pack n (refUnits k s), (s.drop 7).count 0x2C, (refUnits k s).length⟩ := by
  subst hk
  exact encode_eq_pack s n (tokenTable_kind_lt ht) hbytes (fieldsInside_of_count hcommas) hcap

theorem encode_refines_layout_witness :
    nmea_encode (bytes "$GPRMC,123,A") (List.replicate 4 0) =
      some ⟨pack 4 (refUnits 0 (bytes "$GPRMC,123,A")),
        ((bytes "$GPRMC,123,A").drop 7).count 0x2C, (refUnits 0 (bytes "$GPRMC,123,A")).length⟩ :=
  encode_refines_layout (bytes "$GPRMC,123,A") TOKEN_RMC 0 4 (by decide) (by decide) (by decide)
    (by decide) (by decide) (by decide)

/-! ## Detection: claims about the unrecognized case and the priority of the tokens -/

theorem strstr_isSome_false_iff (hay needle : List Nat) :
    (strstr hay needle).isSome = false ↔ ¬ needle <:+: hay := by
  rw [← strstr_isSome_iff]; simp

theorem type_token_append (x : List Nat) :
    nmea_encode_type (TOKEN_RMC ++ x) = IDENT_RMC ∧
    nmea_encode_type (TOKEN_GGA ++ x) =
      (if (strstr x TOKEN_RMC).isSome then IDENT_RMC else IDENT_GGA) ∧
    nmea_encode_type (TOKEN_GSA ++ x) =
      (if (strstr x TOKEN_RMC).isSome then IDENT_RMC
       else if (strstr x TOKEN_GGA).isSome then IDENT_GGA else IDENT_GSA) ∧
    nmea_encode_type (TOKEN_VTG ++ x) =
      (if (strstr x TOKEN_RMC).isSome then IDENT_RMC
       else if (strstr x TOKEN_GGA).isSome then IDENT_GGA
       else if (strstr x TOKEN_GSA).isSome then IDENT_GSA else IDENT_VTG) := by
  refine ⟨?_, ?_, ?_, ?_⟩ <;>
    simp [nmea_encode_type, TOKEN_RMC, TOKEN_GGA, TOKEN_GSA, TOKEN_VTG, bytes, strstr,
      List.isPrefixOf]

theorem earlier_tokens_iff (x : List Nat) (n : Nat) :
    (∀ t' k', (t', k') ∈ tokenTable → k' < n → ¬ t' <:+: x) ↔
      ((0 < n → (strstr x TOKEN_RMC).isSome = false) ∧
       (1 < n → (strstr x TOKEN_GGA).isSome = false) ∧
       (2 < n → (strstr x TOKEN_GSA).isSome = false) ∧
       (3 < n → (strstr x TOKEN_VTG).isSome = false)) := by
  simp only [strstr_isSome_false_iff]
  constructor
  · intro h
    exact ⟨h TOKEN_RMC IDENT_RMC (by simp [tokenTable]),
      h TOKEN_GGA IDENT_GGA (by simp [tokenTable]),
      h TOKEN_GSA IDENT_GSA (by simp [tokenTable]),
      h TOKEN_VTG IDENT_VTG (by simp [tokenTable])⟩
  · rintro ⟨a0, a1, a2, a3⟩ t' k' hm hk
    simp only [tokenTable, List.mem_cons, Prod.mk.injEq, List.mem_singleton, List.not_mem_nil,
      or_false] at hm
    rcases hm with ⟨rfl, rfl⟩ | ⟨rfl, rfl⟩ | ⟨rfl, rfl⟩ | ⟨rfl, rfl⟩
    · exact a0 hk
    · exact a1 hk
    · exact a2 hk
    · exact a3 hk

/-- C2: a sentence in which none of the four tokens occurs as a substring is a
silent no-op for every record: `nmea_encode` returns with zero units written and
the record byte-for-byte as it was; `"$GPZZZ,1,2,3"` is such a sentence. -/
theorem unrecognized_sentence_noop :
    (∀ s r : List Nat, ¬ HasToken s → nmea_encode s r = some ⟨r, 0, 0⟩) ∧
      ¬ HasToken (bytes "$GPZZZ,1,2,3") := by
  constructor
  · intro s r h
    have hf := (type_eq_fai_iff s).mpr h
    unfold nmea_encode
    rw [hf]
    simp [IDENT_FAI, IDENT_MAX]
  · rw [← type_eq_fai_iff]; decide

theorem unrecognized_sentence_noop_witness :
    ¬ HasToken (bytes "$GPZZZ,1,2,3") ∧
      nmea_encode (bytes "$GPZZZ,1,2,3") [0x5A, 0xFF, 0x00] = some ⟨[0x5A, 0xFF, 0x00], 0, 0⟩ :=
  ⟨unrecognized_sentence_noop.2,
    unrecognized_sentence_noop.1 (bytes "$GPZZZ,1,2,3") [0x5A, 0xFF, 0x00]
      unrecognized_sentence_noop.2⟩

/-- C3: the detection yields an identifier below 4 exactly when one of the four
7-character tokens occurs byte-for-byte as a contiguous substring of the
sentence, and yields the sentinel 63 exactly when none does; the lower-case
`"$gprmc,"` and the truncated `"$GPRMC"` are unrecognized. -/
theorem detection_iff_token_occurs :
    (∀ s : List Nat, (nmea_encode_type s < 4 ↔ HasToken s) ∧
      (nmea_encode_type s = 63 ↔ ¬ HasToken s)) ∧
    nmea_encode_type (bytes "$gprmc,") = 63 ∧ nmea_encode_type (bytes "$GPRMC") = 63 := by
  refine ⟨fun s => ⟨type_lt_iff s, type_eq_fai_iff s⟩, by decide, by decide⟩

/-- C4, as stated, fails: the sentence `"$GPGGA,$GPRMC,"` starts with the GGA token
but is detected as RMC (0), because the RMC token is searched first and anywhere. -/
theorem detection_prefix_counterexample :
    nmea_encode_type (bytes "$GPGGA,$GPRMC,") = 0 ∧
      ¬ (∀ t k x, (t, k) ∈ tokenTable → nmea_encode_type (t ++ x) = k) := by
  refine ⟨by decide, fun h => ?_⟩
  have := h TOKEN_GGA IDENT_GGA (bytes "$GPRMC,") (by simp [tokenTable])
  revert this
  decide

/-- C4, amended: for each token `t` of kind `k` and every trailing content `x`,
`t ++ x` is detected as kind `k` exactly when no token of a kind with a smaller
identifier occurs in `x`; for the RMC token this holds whatever `x` contains. -/
theorem detection_prefix_priority (t : List Nat) (k : Nat) (x : List Nat)
    (ht : (t, k) ∈ tokenTable) :
    (nmea_encode_type (t ++ x) = k ↔
      ∀ t' k', (t', k') ∈ tokenTable → k' < k → ¬ t' <:+: x) ∧
    nmea_encode_type (TOKEN_RMC ++ x) = 0 := by
  obtain ⟨h0, h1, h2, h3⟩ := type_token_append x
  refine ⟨?_, h0⟩
  rw [earlier_tokens_iff]
  simp only [tokenTable, List.mem_cons, Prod.mk.injEq, List.mem_singleton, List.not_mem_nil,
    or_false] at ht
  rcases ht with ⟨rfl, rfl⟩ | ⟨rfl, rfl⟩ | ⟨rfl, rfl⟩ | ⟨rfl, rfl⟩
  · rw [h0]
    simp [IDENT_RMC]
  · rw [h1]
    cases (strstr x TOKEN_RMC).isSome <;>
      simp [IDENT_RMC, IDENT_GGA, IDENT_GSA, IDENT_VTG]
  · rw [h2]
    cases (strstr x TOKEN_RMC).isSome <;> cases (strstr x TOKEN_GGA).isSome <;>
      simp [IDENT_RMC, IDENT_GGA, IDENT_GSA, IDENT_VTG]
  · rw [h3]
    cases (strstr x TOKEN_RMC).isSome <;> cases (strstr x TOKEN_GGA).isSome <;>
      cases (strstr x TOKEN_GSA).isSome <;>
      simp [IDENT_RMC, IDENT_GGA, IDENT_GSA, IDENT_VTG]

theorem detection_prefix_priority_witness :
    (nmea_encode_type (TOKEN_GSA ++ bytes "A,3,04,05") = 2 ↔
      ∀ t' k', (t', k') ∈ tokenTable → k' < 2 → ¬ t' <:+: bytes "A,3,04,05") ∧
    nmea_encode_type (TOKEN_RMC ++ bytes "A,3,04,05") = 0 :=
  detection_prefix_priority TOKEN_GSA 2 (bytes "A,3,04,05") (by decide)

theorem hasToken_type_lt {s : List Nat} (hs : HasToken s) : nmea_encode_type s < 4 :=
  (type_lt_iff s).mpr hs

theorem encode_some {s r : List Nat} {fin : EncState} (hs : HasToken s)
    (h : nmea_encode s r = some fin) :
    ∃ us, loopUnits (nmea_encode_type s) 0 (s.drop 7) = some us ∧
      writeUnits (toUChar (nmea_encode_type s) :: us) r 0 = some fin.neRecord ∧
      fin.nePointer = (s.drop 7).count 0x2C ∧ fin.neOffset = 1 + us.length := by
  rw [encode_eq_stateBefore s r (hasToken_type_lt hs)] at h
  exact stateBefore_some h

/-- C5: for a recognized sentence encoded within bounds into an all-zero record,
the low nibble of byte 0 of the record is the identifier of the detected kind
(0 for RMC, 1 for GGA, 2 for GSA, 3 for VTG), whatever follows in the sentence. -/
theorem first_unit_is_kind (s : List Nat) (n : Nat) (fin : EncState) (hs : HasToken s)
    (h : nmea_encode s (List.replicate n 0) = some fin) :
    ∃ b, fin.neRecord[0]? = some b ∧ b % 16 = nmea_encode_type s ∧ nmea_encode_type s < 4 := by
  have hk := hasToken_type_lt hs
  obtain ⟨us, _, hw, _, _⟩ := encode_some hs h
  have hu := writeUnits_unitAt_inside hw 0 (by simp)
  have hb := writeUnits_bound hw (by simp)
  have hlen := writeUnits_length hw
  simp only [List.length_replicate, List.length_cons] at hb hlen
  rw [unitAt_zero _ (fun b hb => (List.mem_replicate.mp hb).2)] at hu
  have hpos : 0 < fin.neRecord.length := by omega
  refine ⟨fin.neRecord[0], List.getElem?_eq_getElem hpos, ?_, hk⟩
  simp only [unitAt, Nat.zero_add, Nat.zero_div, Nat.zero_mod, Nat.zero_mul, Nat.shiftRight_zero,
    List.getD_eq_getElem _ _ hpos, List.getD_cons_zero, Nat.zero_or] at hu
  rw [hu]
  unfold toUChar
  omega

theorem first_unit_is_kind_witness :
    ∃ b, (EncState.mk [0x12, 0x34, 0x03] 0 5).neRecord[0]? = some b ∧
      b % 16 = nmea_encode_type (bytes "$GPGSA,A3") ∧ nmea_encode_type (bytes "$GPGSA,A3") < 4 :=
  first_unit_is_kind (bytes "$GPGSA,A3") 3 ⟨[0x12, 0x34, 0x03], 0, 5⟩
    ((type_lt_iff _).mp (by decide)) (by decide)

/-! ## Per-character claims -/

/-- C6: in a recognized sentence encoded within bounds into an all-zero record, a
non-comma byte `c` lying in a field whose model tag is `'B'` advances the cursor
by exactly two, and the two consecutive units it leaves in the record are
`lo = c mod 16` then `hi = c div 16`, from which `lo + 16 * hi = c` rebuilds the
byte; for `'A'` (0x41) in the `'B'` field of an RMC sentence they are 1 then 4. -/
theorem literal_char_roundtrip (s pre post : List Nat) (c n : Nat) (fin : EncState)
    (hs : HasToken s) (hsplit : s.drop 7 = pre ++ c :: post)
    (hc : c ≠ 0x2C) (hbyte : c < 256)
    (htag : (neModel (nmea_encode_type s))[pre.count 0x2C]? = some 0x42)
    (hfin : nmea_encode s (List.replicate n 0) = some fin) :
    (∃ mid aft,
      stateBefore (nmea_encode_type s) (List.replicate n 0) pre = some mid ∧
      stateBefore (nmea_encode_type s) (List.replicate n 0) (pre ++ [c]) = some aft ∧
      aft.neOffset = mid.neOffset + 2 ∧
      unitAt fin.neRecord mid.neOffset = c % 16 ∧
      unitAt fin.neRecord (mid.neOffset + 1) = c / 16 ∧
      unitAt fin.neRecord mid.neOffset + 16 * unitAt fin.neRecord (mid.neOffset + 1) = c) ∧
    nmea_encode (bytes "$GPRMC,,A") (List.replicate 2 0) = some ⟨[0xF0, 0x41], 1, 4⟩ := by
  refine ⟨?_, by decide⟩
  have hk := hasToken_type_lt hs
  rw [encode_eq_stateBefore s _ hk, hsplit] at hfin
  obtain ⟨mid, aft, tag, hmid, haft, _, _, hm, _, hoff, hunits⟩ := char_effect hfin
  rw [modelAt_of_getElem? hk htag] at hm
  simp only [Option.some.injEq] at hm
  subst hm
  have hbu : bodyUnits 0x42 c = [toUChar ((c : Int) % 16), toUChar ((c >>> 4 : Nat) : Int)] := by
    simp [bodyUnits, hc]
  rw [hbu] at hoff hunits
  have h0 := hunits 0 (by simp)
  have h1 := hunits 1 (by simp)
  have hz : ∀ j, unitAt (List.replicate n 0) j = 0 :=
    unitAt_zero _ (fun b hb => (List.mem_replicate.mp hb).2)
  simp only [hz, Nat.zero_or, Nat.add_zero, List.getD_cons_zero, List.getD_cons_succ] at h0 h1
  have e0 : toUChar ((c : Int) % 16) % 16 = c % 16 := by unfold toUChar; omega
  have e1 : toUChar ((c >>> 4 : Nat) : Int) % 16 = c / 16 := by
    unfold toUChar; rw [Nat.shiftRight_eq_div_pow]; omega
  rw [e0] at h0
  rw [e1] at h1
  refine ⟨mid, aft, hmid, haft, by simpa using hoff, h0, h1, ?_⟩
  rw [h0, h1]; omega

theorem literal_char_roundtrip_witness :
    (∃ mid aft,
      stateBefore (nmea_encode_type (bytes "$GPRMC,,A"))  (List.replicate 2 0) [0x2C] = some mid ∧
      stateBefore (nmea_encode_type (bytes "$GPRMC,,A")) (List.replicate 2 0) ([0x2C] ++ [0x41])
        = some aft ∧
      aft.neOffset = mid.neOffset + 2 ∧
      unitAt (EncState.mk [0xF0, 0x41] 1 4).neRecord mid.neOffset = 0x41 % 16 ∧
      unitAt (EncState.mk [0xF0, 0x41] 1 4).neRecord (mid.neOffset + 1) = 0x41 / 16 ∧
      unitAt (EncState.mk [0xF0, 0x41] 1 4).neRecord mid.neOffset
        + 16 * unitAt (EncState.mk [0xF0, 0x41] 1 4).neRecord (mid.neOffset + 1) = 0x41) ∧
    nmea_encode (bytes "$GPRMC,,A") (List.replicate 2 0) = some ⟨[0xF0, 0x41], 1, 4⟩ :=
  literal_char_roundtrip (bytes "$GPRMC,,A") [0x2C] [] 0x41 2 ⟨[0xF0, 0x41], 1, 4⟩
    ((type_lt_iff _).mp (by decide)) (by decide) (by decide) (by decide) (by decide) (by decide)

/-- C7: in a recognized sentence encoded within bounds into an all-zero record, an
ASCII digit `'0'..'9'` lying in a field whose model tag is `'Q'` advances the cursor
by exactly one, and the unit the record holds at the offset of that character is
the numeric value of the digit. -/
theorem numeric_digit_unit (s pre post : List Nat) (c n : Nat) (fin : EncState)
    (hs : HasToken s) (hsplit : s.drop 7 = pre ++ c :: post)
    (hdigit : 0x30 ≤ c ∧ c ≤ 0x39)
    (htag : (neModel (nmea_encode_type s))[pre.count 0x2C]? = some 0x51)
    (hfin : nmea_encode s (List.replicate n 0) = some fin) :
    ∃ mid aft,
      stateBefore (nmea_encode_type s) (List.replicate n 0) pre = some mid ∧
      stateBefore (nmea_encode_type s) (List.replicate n 0) (pre ++ [c]) = some aft ∧
      aft.neOffset = mid.neOffset + 1 ∧
      unitAt fin.neRecord mid.neOffset = c - 0x30 ∧ c - 0x30 ≤ 9 := by
  have hk := hasToken_type_lt hs
  rw [encode_eq_stateBefore s _ hk, hsplit] at hfin
  obtain ⟨mid, aft, tag, hmid, haft, _, _, hm, _, hoff, hunits⟩ := char_effect hfin
  rw [modelAt_of_getElem? hk htag] at hm
  simp only [Option.some.injEq] at hm
  subst hm
  have hc : c ≠ 0x2C := by omega
  have hd : 0x30 ≤ c ∧ c < 0x3A := by omega
  have hbu : bodyUnits 0x51 c = [toUChar ((c : Int) - 0x30)] := by
    simp [bodyUnits, hc, hd]
  rw [hbu] at hoff hunits
  have h0 := hunits 0 (by simp)
  have hz : ∀ j, unitAt (List.replicate n 0) j = 0 :=
    unitAt_zero _ (fun b hb => (List.mem_replicate.mp hb).2)
  simp only [hz, Nat.zero_or, Nat.add_zero, List.getD_cons_zero] at h0
  have e0 : toUChar ((c : Int) - 0x30) % 16 = c - 0x30 := by unfold toUChar; omega
  rw [e0] at h0
  exact ⟨mid, aft, hmid, haft, by simpa using hoff, h0, by omega⟩

theorem numeric_digit_unit_witness :
    ∃ mid aft,
      stateBefore (nmea_encode_type (bytes "$GPRMC,123,A")) (List.replicate 4 0) (bytes "12")
        = some mid ∧
      stateBefore (nmea_encode_type (bytes "$GPRMC,123,A")) (List.replicate 4 0)
        (bytes "12" ++ [0x33]) = some aft ∧
      aft.neOffset = mid.neOffset + 1 ∧
      unitAt (EncState.mk [0x10, 0x32, 0x1F, 0x04] 1 7).neRecord mid.neOffset = 0x33 - 0x30 ∧
      0x33 - 0x30 ≤ 9 :=
  numeric_digit_unit (bytes "$GPRMC,123,A") (bytes "12") (bytes ",A") 0x33 4
    ⟨[0x10, 0x32, 0x1F, 0x04], 1, 7⟩
    ((type_lt_iff _).mp (by decide)) (by decide) (by decide) (by decide) (by decide)

/-! ## Terminators, unit count and frame -/

theorem bodyUnits_length (tag c : Nat) : (bodyUnits tag c).length = tagWidth tag := by
  unfold bodyUnits tagWidth
  by_cases h1 : c = 0x2C <;> by_cases h2 : tag = 0x51 <;>
    by_cases h3 : 0x30 ≤ c ∧ c < 0x3A <;> simp [h1, h2, h3]

theorem loopUnits_length (k : Nat) (hk : k < 4) (cs : List Nat) (p : Nat) (us : List Nat)
    (h : loopUnits k p cs = some us)
    (hin : FieldsInside (neModel k).length p cs) :
    us.length = ((List.range cs.length).map fun i =>
      tagWidth ((neModel k).getD (p + (cs.take i).count 0x2C) 0)).sum := by
  induction cs generalizing p us with
  | nil =>
    simp only [loopUnits, Option.some.injEq] at h
    subst h
    simp
  | cons c cs ih =>
    obtain ⟨hp, hin'⟩ := fieldsInside_cons hin
    obtain ⟨hm, _⟩ := modelAt_inside k p hk hp
    simp only [loopUnits, hm] at h
    cases hl : loopUnits k (p + if c = 0x2C then 1 else 0) cs with
    | none => simp [hl] at h
    | some us' =>
      simp only [hl, Option.some.injEq] at h
      subst h
      rw [List.length_append, bodyUnits_length, ih _ _ hl hin', List.length_cons,
        List.range_succ_eq_map, List.map_cons, List.sum_cons, List.map_map]
      simp only [List.take_zero, List.count_nil, Nat.add_zero]
      congr 2
      apply List.map_congr_left
      intro i _
      simp only [Function.comp, List.take_succ_cons, List.count_cons]
      by_cases hc : c = 0x2C
      · simp only [hc, if_true, beq_self_eq_true]
        congr 2; omega
      · have hb : (c == 0x2C) = false := by simpa using hc
        simp only [hc, hb, if_false]
        congr 2

/-- C8: in a recognized sentence encoded within bounds, every character of which
has its field index inside the model, each comma after the header leaves one
terminator of `0xF` units at the cursor, one unit wide for a `'Q'` field and two
for a `'B'` field, and advances the field index by exactly one; the number of
units written is 1 plus the sum over the characters after the header of the
width of the tag of the field of each. -/
theorem comma_terminator (s r : List Nat) (fin : EncState) (hs : HasToken s)
    (hin : ∀ i, i < (s.drop 7).length →
      ((s.drop 7).take i).count 0x2C < (neModel (nmea_encode_type s)).length)
    (hfin : nmea_encode s r = some fin) :
    (∀ pre post, s.drop 7 = pre ++ 0x2C :: post →
      ∃ mid aft,
        stateBefore (nmea_encode_type s) r pre = some mid ∧
        stateBefore (nmea_encode_type s) r (pre ++ [0x2C]) = some aft ∧
        mid.nePointer = pre.count 0x2C ∧
        aft.nePointer = mid.nePointer + 1 ∧
        ((neModel (nmea_encode_type s)).getD mid.nePointer 0 = 0x51 ∧
            aft.neOffset = mid.neOffset + 1 ∨
          (neModel (nmea_encode_type s)).getD mid.nePointer 0 = 0x42 ∧
            aft.neOffset = mid.neOffset + 2) ∧
        ∀ j, mid.neOffset ≤ j → j < aft.neOffset → unitAt fin.neRecord j = 0xF) ∧
    fin.neOffset = 1 + widthSum (neModel (nmea_encode_type s)) (s.drop 7) := by
  have hk := hasToken_type_lt hs
  constructor
  · intro pre post hsplit
    have hfin' := hfin
    rw [encode_eq_stateBefore s _ hk, hsplit] at hfin'
    obtain ⟨mid, aft, tag, hmid, haft, hptr, _, hm, hpa, hoff, hunits⟩ := char_effect hfin'
    have hlt : pre.count 0x2C < (neModel (nmea_encode_type s)).length := by
      have := hin pre.length (by rw [hsplit]; simp)
      rw [hsplit, List.take_left'] at this
      · exact this
      · rfl
    obtain ⟨hm2, htag⟩ := modelAt_inside _ _ hk hlt
    rw [hm2] at hm
    simp only [Option.some.injEq] at hm
    rw [bodyUnits_length] at hoff
    have hterm : ∀ i, (bodyUnits tag 0x2C).getD i 0 % 16 = 15 % 16 ∨
        (bodyUnits tag 0x2C).length ≤ i := by
      intro i
      unfold bodyUnits
      by_cases ht : tag = 0x51
      · simp only [ht, if_true]
        cases i with
        | zero => left; rfl
        | succ i => right; simp
      · simp only [ht, if_true, if_false]
        rcases i with _ | _ | i
        · left; rfl
        · left; rfl
        · right; simp
    refine ⟨mid, aft, hmid, haft, hptr, by simpa using hpa, ?_, ?_⟩
    · rw [hptr, hm]
      rw [hm] at htag
      rcases htag with h | h
      · left; exact ⟨h, by rw [hoff, h]; rfl⟩
      · right; exact ⟨h, by rw [hoff, h]; rfl⟩
    · intro j hj1 hj2
      obtain ⟨i, rfl⟩ : ∃ i, j = mid.neOffset + i := ⟨j - mid.neOffset, by omega⟩
      have hi : i < (bodyUnits tag 0x2C).length := by rw [bodyUnits_length]; omega
      rw [hunits i hi]
      rcases hterm i with h | h
      · rw [h]
        exact or_fifteen _
      · omega
  · obtain ⟨us, hus, _, _, hoff⟩ := encode_some hs hfin
    rw [hoff, loopUnits_length _ hk _ 0 us hus (by intro i hi; simpa using hin i hi)]
    simp [widthSum]

theorem comma_terminator_witness :
    (∀ pre post, (bytes "$GPRMC,1,A").drop 7 = pre ++ 0x2C :: post →
      ∃ mid aft,
        stateBefore (nmea_encode_type (bytes "$GPRMC,1,A")) (List.replicate 3 0) pre = some mid ∧
        stateBefore (nmea_encode_type (bytes "$GPRMC,1,A")) (List.replicate 3 0) (pre ++ [0x2C])
          = some aft ∧
        mid.nePointer = pre.count 0x2C ∧
        aft.nePointer = mid.nePointer + 1 ∧
        ((neModel (nmea_encode_type (bytes "$GPRMC,1,A"))).getD mid.nePointer 0 = 0x51 ∧
            aft.neOffset = mid.neOffset + 1 ∨
          (neModel (nmea_encode_type (bytes "$GPRMC,1,A"))).getD mid.nePointer 0 = 0x42 ∧
            aft.neOffset = mid.neOffset + 2) ∧
        ∀ j, mid.neOffset ≤ j → j < aft.neOffset →
          unitAt (EncState.mk [0x10, 0x1F, 0x04] 1 5).neRecord j = 0xF) ∧
    (EncState.mk [0x10, 0x1F, 0x04] 1 5).neOffset
      = 1 + widthSum (neModel (nmea_encode_type (bytes "$GPRMC,1,A")))
          ((bytes "$GPRMC,1,A").drop 7) :=
  comma_terminator (bytes "$GPRMC,1,A") (List.replicate 3 0) ⟨[0x10, 0x1F, 0x04], 1, 5⟩
    ((type_lt_iff _).mp (by decide)) (by decide) (by decide)

theorem pack_sixteen_units (m : Nat) :
    pack (8 + m) [0, 15, 15, 15, 15, 15, 15, 15, 15, 15, 15, 15, 15, 15, 15, 15] =
      [0xF0, 0xFF, 0xFF, 0xFF, 0xFF, 0xFF, 0xFF, 0xFF] ++ List.replicate m 0 := by
  unfold pack
  rw [List.range_add, List.map_append, List.map_map]
  congr 1
  rw [List.eq_replicate_iff]
  refine ⟨by simp, ?_⟩
  intro b hb
  obtain ⟨i, _, rfl⟩ := List.mem_map.mp hb
  have h1 : ∀ j, 16 ≤ j →
      ([0, 15, 15, 15, 15, 15, 15, 15, 15, 15, 15, 15, 15, 15, 15, 15] : List Nat).getD j 0 = 0 := by
    intro j hj
    rw [List.getD_eq_getElem?_getD, List.getElem?_eq_none (by simpa using hj)]
    rfl
  simp only [Function.comp]
  rw [h1 _ (by omega), h1 _ (by omega)]

/-- C9: the sentence `"$GPRMC,,,,,,,,,,,,"` (the token and eleven more commas) is
encoded into an all-zero record of at least 8 bytes as unit 0 = 0 followed by the
eleven terminators of the model `QBQBQBQQQQB`: 16 units are written, the first 8
bytes of the record are `F0 FF FF FF FF FF FF FF` and every later byte stays 0. -/
theorem scenario_all_fields_empty (n : Nat) (hn : 8 ≤ n) :
    nmea_encode (bytes "$GPRMC,,,,,,,,,,,,") (List.replicate n 0) =
      some ⟨[0xF0, 0xFF, 0xFF, 0xFF, 0xFF, 0xFF, 0xFF, 0xFF] ++ List.replicate (n - 8) 0,
        11, 16⟩ := by
  have hU : refUnits (nmea_encode_type (bytes "$GPRMC,,,,,,,,,,,,")) (bytes "$GPRMC,,,,,,,,,,,,")
      = [0, 15, 15, 15, 15, 15, 15, 15, 15, 15, 15, 15, 15, 15, 15, 15] := by decide
  have h := encode_eq_pack (bytes "$GPRMC,,,,,,,,,,,,") n (by decide) (by decide)
    (by unfold FieldsInside; decide)
    (by rw [hU]; simp only [List.length_cons, List.length_nil]; omega)
  rw [h, hU]
  obtain ⟨m, rfl⟩ : ∃ m, n = 8 + m := ⟨n - 8, by omega⟩
  rw [pack_sixteen_units]
  have hc : ((bytes "$GPRMC,,,,,,,,,,,,").drop 7).count 0x2C = 11 := by decide
  simp [hc]

theorem scenario_all_fields_empty_witness :
    nmea_encode (bytes "$GPRMC,,,,,,,,,,,,") (List.replicate 10 0) =
      some ⟨[0xF0, 0xFF, 0xFF, 0xFF, 0xFF, 0xFF, 0xFF, 0xFF] ++ List.replicate (10 - 8) 0,
        11, 16⟩ :=
  scenario_all_fields_empty 10 (by decide)

/-- C10: for a recognized sentence encoded within bounds into any record, with
`n` the number of units written, the record keeps its length, every byte at an
index `≥ ⌈n / 2⌉` is as before the call and, when `n` is odd, so is the high
nibble of byte `(n - 1) / 2`; in a pre-zeroed record these bytes and that nibble
are therefore 0. -/
theorem encode_frame (s r : List Nat) (fin : EncState) (hs : HasToken s)
    (hfin : nmea_encode s r = some fin) :
    fin.neRecord.length = r.length ∧
    (∀ i, (fin.neOffset + 1) / 2 ≤ i → fin.neRecord[i]? = r[i]?) ∧
    (fin.neOffset % 2 = 1 →
      fin.neRecord.getD ((fin.neOffset - 1) / 2) 0 / 16 % 16 =
        r.getD ((fin.neOffset - 1) / 2) 0 / 16 % 16) ∧
    ((∀ b ∈ r, b = 0) →
      (∀ i, (fin.neOffset + 1) / 2 ≤ i → fin.neRecord.getD i 0 = 0) ∧
      (fin.neOffset % 2 = 1 → fin.neRecord.getD ((fin.neOffset - 1) / 2) 0 / 16 % 16 = 0)) := by
  obtain ⟨us, _, hw, _, hoff⟩ := encode_some hs hfin
  have hbytes : ∀ i, (fin.neOffset + 1) / 2 ≤ i → fin.neRecord[i]? = r[i]? := by
    intro i hi
    exact writeUnits_getElem? hw i (Or.inr (by simp only [List.length_cons]; omega))
  have hhigh : fin.neOffset % 2 = 1 →
      fin.neRecord.getD ((fin.neOffset - 1) / 2) 0 / 16 % 16 =
        r.getD ((fin.neOffset - 1) / 2) 0 / 16 % 16 := by
    intro hodd
    have hu := writeUnits_unitAt_outside hw fin.neOffset
      (Or.inr (by simp only [List.length_cons]; omega))
    have e : fin.neOffset / 2 = (fin.neOffset - 1) / 2 := by omega
    simp only [unitAt, hodd, Nat.one_mul, Nat.shiftRight_eq_div_pow, e] at hu
    exact hu
  have hzero : ∀ i, (∀ b ∈ r, b = 0) → r.getD i 0 = 0 := by
    intro i hz
    rw [List.getD_eq_getElem?_getD]
    cases hg : r[i]? with
    | none => rfl
    | some b => exact hz b (List.getElem?_mem hg)
  refine ⟨writeUnits_length hw, hbytes, hhigh, fun hz => ⟨?_, ?_⟩⟩
  · intro i hi
    rw [List.getD_eq_getElem?_getD, hbytes i hi, ← List.getD_eq_getElem?_getD]
    exact hzero i hz
  · intro hodd
    rw [hhigh hodd, hzero _ hz]

theorem encode_frame_witness :
    (EncState.mk [0x10, 0x1F, 0x74, 0x5A] 1 5).neRecord.length = [0, 0, 0x70, 0x5A].length ∧
    (∀ i, ((EncState.mk [0x10, 0x1F, 0x74, 0x5A] 1 5).neOffset + 1) / 2 ≤ i →
      (EncState.mk [0x10, 0x1F, 0x74, 0x5A] 1 5).neRecord[i]? = [0, 0, 0x70, 0x5A][i]?) ∧
    ((EncState.mk [0x10, 0x1F, 0x74, 0x5A] 1 5).neOffset % 2 = 1 →
      (EncState.mk [0x10, 0x1F, 0x74, 0x5A] 1 5).neRecord.getD
          (((EncState.mk [0x10, 0x1F, 0x74, 0x5A] 1 5).neOffset - 1) / 2) 0 / 16 % 16 =
        [0, 0, 0x70, 0x5A].getD
          (((EncState.mk [0x10, 0x1F, 0x74, 0x5A] 1 5).neOffset - 1) / 2) 0 / 16 % 16) ∧
    ((∀ b ∈ [0, 0, 0x70, 0x5A], b = 0) →
      (∀ i, ((EncState.mk [0x10, 0x1F, 0x74, 0x5A] 1 5).neOffset + 1) / 2 ≤ i →
        (EncState.mk [0x10, 0x1F, 0x74, 0x5A] 1 5).neRecord.getD i 0 = 0) ∧
      ((EncState.mk [0x10, 0x1F, 0x74, 0x5A] 1 5).neOffset % 2 = 1 →
        (EncState.mk [0x10, 0x1F, 0x74, 0x5A] 1 5).neRecord.getD
          (((EncState.mk [0x10, 0x1F, 0x74, 0x5A] 1 5).neOffset - 1) / 2) 0 / 16 % 16 = 0)) :=
  encode_frame (bytes "$GPRMC,1,A") [0, 0, 0x70, 0x5A] ⟨[0x10, 0x1F, 0x74, 0x5A], 1, 5⟩
    ((type_lt_iff _).mp (by decide)) (by decide)

/-! ## The write primitive -/

/-- C11: an in-bounds `nmea_setquartet(v, record, o)` returns, keeps the length of
the record, leaves every byte other than byte `o / 2` unchanged and, within byte
`o / 2`, leaves the other half-byte unchanged: the high nibble when `o` is even,
the low nibble when `o` is odd. -/
theorem setquartet_frame (v o : Nat) (r : List Nat) (h : o / 2 < r.length) :
    ∃ r', nmea_setquartet v r o = some r' ∧ r'.length = r.length ∧
      (∀ i, i ≠ o / 2 → r'[i]? = r[i]?) ∧
      (o % 2 = 0 → r'.getD (o / 2) 0 / 16 % 16 = r.getD (o / 2) 0 / 16 % 16) ∧
      (o % 2 = 1 → r'.getD (o / 2) 0 % 16 = r.getD (o / 2) 0 % 16) := by
  obtain ⟨r', hr'⟩ := setquartet_isSome v o r h
  refine ⟨r', hr', setquartet_length hr', fun i hi => setquartet_getElem? hr' i hi, ?_, ?_⟩
  · intro he
    have hu := setquartet_unitAt hr' (o + 1)
    rw [if_neg (by omega)] at hu
    have e1 : (o + 1) / 2 = o / 2 := by omega
    have e2 : (o + 1) % 2 = 1 := by omega
    simpa only [unitAt, e1, e2, Nat.one_mul, Nat.shiftRight_eq_div_pow] using hu
  · intro ho
    have hu := setquartet_unitAt hr' (o - 1)
    rw [if_neg (by omega)] at hu
    have e1 : (o - 1) / 2 = o / 2 := by omega
    have e2 : (o - 1) % 2 = 0 := by omega
    simpa only [unitAt, e1, e2, Nat.zero_mul, Nat.shiftRight_zero] using hu

theorem setquartet_frame_witness :
    ∃ r', nmea_setquartet 0xAB [0x12, 0x34, 0x56] 3 = some r' ∧
      r'.length = [0x12, 0x34, 0x56].length ∧
      (∀ i, i ≠ 3 / 2 → r'[i]? = [0x12, 0x34, 0x56][i]?) ∧
      (3 % 2 = 0 → r'.getD (3 / 2) 0 / 16 % 16 = [0x12, 0x34, 0x56].getD (3 / 2) 0 / 16 % 16) ∧
      (3 % 2 = 1 → r'.getD (3 / 2) 0 % 16 = [0x12, 0x34, 0x56].getD (3 / 2) 0 % 16) :=
  setquartet_frame 0xAB 3 [0x12, 0x34, 0x56] (by decide)

/-- C12, as stated, fails: writing the value 5 at offset 0 of the record `[0x0A]`
leaves `0x0F` in the addressed half-byte, not `5 mod 16`, because the write is an
OR into the previous contents. -/
theorem setquartet_exact_counterexample :
    nmea_setquartet 5 [0x0A] 0 = some [0x0F] ∧ unitAt [0x0F] 0 ≠ 5 % 16 ∧
      ¬ (∀ v o r r', nmea_setquartet v r o = some r' → unitAt r' o = v % 16) := by
  refine ⟨by decide, by decide, fun h => ?_⟩
  have := h 5 0 [0x0A] [0x0F] (by decide)
  revert this
  decide

/-- C12, amended: after an in-bounds `nmea_setquartet(v, record, o)` the addressed
half-byte (low nibble of byte `o / 2` when `o` is even, high nibble when `o` is odd)
holds the bitwise OR of its previous value with `v mod 16`; it holds exactly
`v mod 16` when the addressed half-byte was 0 before the call. -/
theorem setquartet_addressed_unit (v o : Nat) (r : List Nat) (h : o / 2 < r.length) :
    ∃ r', nmea_setquartet v r o = some r' ∧
      unitAt r' o = unitAt r o ||| (v % 16) ∧
      (unitAt r o = 0 → unitAt r' o = v % 16) ∧
      (o % 2 = 0 → unitAt r' o = r'.getD (o / 2) 0 % 16) ∧
      (o % 2 = 1 → unitAt r' o = r'.getD (o / 2) 0 / 16 % 16) := by
  obtain ⟨r', hr'⟩ := setquartet_isSome v o r h
  have hu := setquartet_unitAt hr' o
  rw [if_pos rfl] at hu
  refine ⟨r', hr', hu, ?_, ?_, ?_⟩
  · intro hz
    rw [hu, hz, Nat.zero_or]
  · intro he
    simp only [unitAt, he, Nat.zero_mul, Nat.shiftRight_zero]
  · intro ho
    simp only [unitAt, ho, Nat.one_mul, Nat.shiftRight_eq_div_pow]

theorem setquartet_addressed_unit_witness :
    ∃ r', nmea_setquartet 0xAB [0x12, 0x04, 0x56] 3 = some r' ∧
      unitAt r' 3 = unitAt [0x12, 0x04, 0x56] 3 ||| (0xAB % 16) ∧
      (unitAt [0x12, 0x04, 0x56] 3 = 0 → unitAt r' 3 = 0xAB % 16) ∧
      (3 % 2 = 0 → unitAt r' 3 = r'.getD (3 / 2) 0 % 16) ∧
      (3 % 2 = 1 → unitAt r' 3 = r'.getD (3 / 2) 0 / 16 % 16) :=
  setquartet_addressed_unit 0xAB 3 [0x12, 0x04, 0x56] (by decide)

/-! ## Sentences without a comma, and the units of a numeric field -/

/-- C13, as stated, fails: `"$GPRMC,"` writes the single kind unit and
`"$GPRMC,123"` writes the four units 0, 1, 2, 3; neither writes a terminator,
the model pointer stays at 0 and no `0xF` unit is in the record. -/
theorem no_comma_counterexample :
    nmea_encode (bytes "$GPRMC,") [0, 0] = some ⟨[0, 0], 0, 1⟩ ∧
    nmea_encode (bytes "$GPRMC,123") [0, 0] = some ⟨[0x10, 0x32], 0, 4⟩ ∧
    (List.range 4).map (unitAt [0x10, 0x32]) = [0, 1, 2, 3] := by
  decide

theorem refCharUnits_content (tag c : Nat) (hc : c ≠ 0x2C) (htag : tag = 0x51 ∨ tag = 0x42) :
    refCharUnits tag c = contentUnits tag c := by
  unfold refCharUnits contentUnits
  rcases htag with h | h <;> simp [hc, h]

theorem refUnitsFrom_no_comma (model cs : List Nat) (hnc : cs.count 0x2C = 0)
    (htag : model.getD 0 0 = 0x51 ∨ model.getD 0 0 = 0x42) :
    refUnitsFrom model 0 cs = cs.flatMap (contentUnits (model.getD 0 0)) := by
  induction cs with
  | nil => rfl
  | cons c cs ih =>
    have hc : c ≠ 0x2C := by
      intro h
      rw [h, List.count_cons_self] at hnc
      omega
    have hcs : cs.count 0x2C = 0 := by
      rw [List.count_cons_of_ne (Ne.symm hc)] at hnc
      exact hnc
    simp only [refUnitsFrom, if_neg hc, ih hcs, List.flatMap_cons]
    rw [refCharUnits_content _ c hc htag]

/-- C13, amended: a recognized sentence whose text after the 7-character header
contains no comma is encoded without any field terminator: the model pointer stays
at 0, the units written are the kind unit and the content units only (one per
character when the first tag of the model is `'Q'`, two when it is `'B'`), and an
all-zero record is left as the packing of the kind unit followed by the content
units of the characters, in order. -/
theorem no_comma_no_terminator (s r : List Nat) (fin : EncState) (hs : HasToken s)
    (hnc : (s.drop 7).count 0x2C = 0) (hfin : nmea_encode s r = some fin) :
    fin.nePointer = 0 ∧
      fin.neOffset =
        1 + tagWidth ((neModel (nmea_encode_type s)).getD 0 0) * (s.drop 7).length ∧
      ((neModel (nmea_encode_type s)).getD 0 0 = 0x51 ∨
        (neModel (nmea_encode_type s)).getD 0 0 = 0x42) ∧
      ((∀ b ∈ r, b = 0) → (∀ c ∈ s, c < 256) →
        fin.neRecord = pack r.length (nmea_encode_type s ::
          (s.drop 7).flatMap (contentUnits ((neModel (nmea_encode_type s)).getD 0 0)))) := by
  have hk := hasToken_type_lt hs
  obtain ⟨us, hus, hw, hptr, hoff⟩ := encode_some hs hfin
  have hpos : 0 < (neModel (nmea_encode_type s)).length := by
    have : ∀ k, k < 4 → 0 < (neModel k).length := by decide
    exact this _ hk
  have hin : FieldsInside (neModel (nmea_encode_type s)).length 0 (s.drop 7) :=
    fieldsInside_of_count (by omega)
  have hlen := loopUnits_length _ hk _ 0 us hus hin
  have hconst : ∀ i ∈ List.range (s.drop 7).length,
      tagWidth ((neModel (nmea_encode_type s)).getD (0 + ((s.drop 7).take i).count 0x2C) 0) =
        tagWidth ((neModel (nmea_encode_type s)).getD 0 0) := by
    intro i _
    have : ((s.drop 7).take i).count 0x2C ≤ (s.drop 7).count 0x2C :=
      List.Sublist.count_le (List.take_sublist i _) _
    have e : ((s.drop 7).take i).count 0x2C = 0 := by omega
    rw [e]
  rw [List.map_congr_left hconst] at hlen
  have htag := (modelAt_inside _ 0 hk hpos).2
  refine ⟨by omega, ?_, htag, ?_⟩
  · rw [hoff, hlen]
    simp [Nat.mul_comm]
  · intro hz hbytes
    have hr : r = List.replicate r.length 0 := List.eq_replicate_iff.mpr ⟨rfl, hz⟩
    obtain ⟨us', hus', href⟩ := loopUnits_ref _ hk (s.drop 7) 0
      (fun c hc => hbytes c (List.mem_of_mem_drop hc)) hin
    rw [hus] at hus'
    simp only [Option.some.injEq] at hus'
    subst hus'
    have hcap := writeUnits_bound hw (by simp)
    have hul : (refUnits (nmea_encode_type s) s).length = 1 + us.length := by
      simp only [refUnits, List.length_cons, ← href, List.length_map]
      omega
    have hpk := encode_eq_pack s r.length hk hbytes hin
      (by rw [hul]; simp only [List.length_cons] at hcap; omega)
    rw [← hr, hfin, Option.some.injEq] at hpk
    rw [hpk]
    simp only [refUnits]
    rw [refUnitsFrom_no_comma _ _ hnc htag]

theorem no_comma_no_terminator_witness :
    (EncState.mk [0x10, 0x32] 0 4).nePointer = 0 ∧
      (EncState.mk [0x10, 0x32] 0 4).neOffset =
        1 + tagWidth ((neModel (nmea_encode_type (bytes "$GPRMC,123"))).getD 0 0)
          * ((bytes "$GPRMC,123").drop 7).length ∧
      ((neModel (nmea_encode_type (bytes "$GPRMC,123"))).getD 0 0 = 0x51 ∨
        (neModel (nmea_encode_type (bytes "$GPRMC,123"))).getD 0 0 = 0x42) ∧
      ((∀ b ∈ [0, 0], b = 0) → (∀ c ∈ bytes "$GPRMC,123", c < 256) →
        (EncState.mk [0x10, 0x32] 0 4).neRecord =
          pack ([0, 0] : List Nat).length (nmea_encode_type (bytes "$GPRMC,123") ::
            ((bytes "$GPRMC,123").drop 7).flatMap
              (contentUnits ((neModel (nmea_encode_type (bytes "$GPRMC,123"))).getD 0 0)))) :=
  no_comma_no_terminator (bytes "$GPRMC,123") [0, 0] ⟨[0x10, 0x32], 0, 4⟩
    ((type_lt_iff _).mp (by decide)) (by decide) (by decide)

/-- A non-comma character of a `'Q'` field advances the cursor by one and leaves its
low nibble in an all-zero record, through either branch of the digit test. -/
theorem numeric_char_effect {s pre post : List Nat} {c n : Nat} {fin : EncState}
    (hs : HasToken s) (hsplit : s.drop 7 = pre ++ c :: post) (hc : c ≠ 0x2C)
    (htag : (neModel (nmea_encode_type s))[pre.count 0x2C]? = some 0x51)
    (hfin : nmea_encode s (List.replicate n 0) = some fin) :
    ∃ mid aft,
      stateBefore (nmea_encode_type s) (List.replicate n 0) pre = some mid ∧
      stateBefore (nmea_encode_type s) (List.replicate n 0) (pre ++ [c]) = some aft ∧
      aft.neOffset = mid.neOffset + 1 ∧
      unitAt fin.neRecord mid.neOffset = c % 16 := by
  have hk := hasToken_type_lt hs
  rw [encode_eq_stateBefore s _ hk, hsplit] at hfin
  obtain ⟨mid, aft, tag, hmid, haft, _, _, hm, _, hoff, hunits⟩ := char_effect hfin
  rw [modelAt_of_getElem? hk htag] at hm
  simp only [Option.some.injEq] at hm
  subst hm
  have hz : ∀ j, unitAt (List.replicate n 0) j = 0 :=
    unitAt_zero _ (fun b hb => (List.mem_replicate.mp hb).2)
  by_cases hd : 0x30 ≤ c ∧ c < 0x3A
  · have hbu : bodyUnits 0x51 c = [toUChar ((c : Int) - 0x30)] := by
      simp [bodyUnits, hc, hd]
    rw [hbu] at hoff hunits
    have h0 := hunits 0 (by simp)
    simp only [hz, Nat.zero_or, Nat.add_zero, List.getD_cons_zero] at h0
    have e0 : toUChar ((c : Int) - 0x30) % 16 = c % 16 := by unfold toUChar; omega
    rw [e0] at h0
    exact ⟨mid, aft, hmid, haft, by simpa using hoff, h0⟩
  · have hbu : bodyUnits 0x51 c = [toUChar ((c : Int) - 0x20)] := by
      simp [bodyUnits, hc, hd]
    rw [hbu] at hoff hunits
    have h0 := hunits 0 (by simp)
    simp only [hz, Nat.zero_or, Nat.add_zero, List.getD_cons_zero] at h0
    have e0 : toUChar ((c : Int) - 0x20) % 16 = c % 16 := by unfold toUChar; omega
    rw [e0] at h0
    exact ⟨mid, aft, hmid, haft, by simpa using hoff, h0⟩

/-- C14, as stated, fails: in `"$GPRMC,/"` the character `'/'` (0x2F) lies in the
first field of the RMC model, whose tag is `'Q'`, and the unit written for it is
`0xF`, the terminator value. -/
theorem numeric_content_terminator_counterexample :
    (neModel (nmea_encode_type (bytes "$GPRMC,/")))[0]? = some 0x51 ∧
    nmea_encode (bytes "$GPRMC,/") [0] = some ⟨[0xF0], 0, 2⟩ ∧
    unitAt [0xF0] 1 = 0xF := by
  decide

/-- C14, amended: for a non-comma character `c` of a `'Q'` field, in a recognized
sentence encoded within bounds into an all-zero record, the single unit written is
the terminator value `0xF` exactly when `c mod 16 = 15`; it differs from `0xF` for
every other character, in particular for the digits, `'.'`, `'-'` and `'*'`. -/
theorem numeric_unit_terminator_iff (s pre post : List Nat) (c n : Nat) (fin : EncState)
    (hs : HasToken s) (hsplit : s.drop 7 = pre ++ c :: post) (hc : c ≠ 0x2C)
    (htag : (neModel (nmea_encode_type s))[pre.count 0x2C]? = some 0x51)
    (hfin : nmea_encode s (List.replicate n 0) = some fin) :
    ∃ mid aft,
      stateBefore (nmea_encode_type s) (List.replicate n 0) pre = some mid ∧
      stateBefore (nmea_encode_type s) (List.replicate n 0) (pre ++ [c]) = some aft ∧
      aft.neOffset = mid.neOffset + 1 ∧
      (unitAt fin.neRecord mid.neOffset = 0xF ↔ c % 16 = 15) ∧
      ((0x30 ≤ c ∧ c ≤ 0x39) ∨ c = 0x2E ∨ c = 0x2D ∨ c = 0x2A →
        unitAt fin.neRecord mid.neOffset ≠ 0xF) := by
  obtain ⟨mid, aft, hmid, haft, hoff, hu⟩ := numeric_char_effect hs hsplit hc htag hfin
  refine ⟨mid, aft, hmid, haft, hoff, by rw [hu], ?_⟩
  intro h
  rw [hu]
  omega

theorem numeric_unit_terminator_iff_witness :
    ∃ mid aft,
      stateBefore (nmea_encode_type (bytes "$GPRMC,1.5")) (List.replicate 2 0) (bytes "1")
        = some mid ∧
      stateBefore (nmea_encode_type (bytes "$GPRMC,1.5")) (List.replicate 2 0)
        (bytes "1" ++ [0x2E]) = some aft ∧
      aft.neOffset = mid.neOffset + 1 ∧
      (unitAt (EncState.mk [0x10, 0x5E] 0 4).neRecord mid.neOffset = 0xF ↔ 0x2E % 16 = 15) ∧
      ((0x30 ≤ 0x2E ∧ 0x2E ≤ 0x39) ∨ 0x2E = 0x2E ∨ 0x2E = 0x2D ∨ 0x2E = 0x2A →
        unitAt (EncState.mk [0x10, 0x5E] 0 4).neRecord mid.neOffset ≠ 0xF) :=
  numeric_unit_terminator_iff (bytes "$GPRMC,1.5") (bytes "1") (bytes "5") 0x2E 2
    ⟨[0x10, 0x5E], 0, 4⟩ ((type_lt_iff _).mp (by decide)) (by decide) (by decide) (by decide)
    (by decide)

/-- C20: for a non-comma byte `c` in `0x01..0xFF` of a `'Q'` field, in a recognized
sentence encoded within bounds into an all-zero record, the unit stored is
`c mod 16`: the digit branch passes `c - 0x30`, the other branch passes `c - 0x20`
converted to `unsigned char` (for `c < 0x20` the difference is negative and wraps
to `c + 224`), and both reduce modulo 16 to the low nibble of `c`. -/
theorem numeric_unit_is_low_nibble (s pre post : List Nat) (c n : Nat) (fin : EncState)
    (hs : HasToken s) (hsplit : s.drop 7 = pre ++ c :: post) (hc : c ≠ 0x2C)
    (hbyte : 1 ≤ c ∧ c ≤ 0xFF)
    (htag : (neModel (nmea_encode_type s))[pre.count 0x2C]? = some 0x51)
    (hfin : nmea_encode s (List.replicate n 0) = some fin) :
    (∃ mid aft,
      stateBefore (nmea_encode_type s) (List.replicate n 0) pre = some mid ∧
      stateBefore (nmea_encode_type s) (List.replicate n 0) (pre ++ [c]) = some aft ∧
      aft.neOffset = mid.neOffset + 1 ∧
      unitAt fin.neRecord mid.neOffset = c % 16) ∧
    (0x30 ≤ c ∧ c < 0x3A →
      bodyUnits 0x51 c = [toUChar ((c : Int) - 0x30)] ∧
      toUChar ((c : Int) - 0x30) = c - 0x30 ∧ (c - 0x30) % 16 = c % 16) ∧
    (¬ (0x30 ≤ c ∧ c < 0x3A) →
      bodyUnits 0x51 c = [toUChar ((c : Int) - 0x20)] ∧
      toUChar ((c : Int) - 0x20) = (c + 224) % 256 ∧
      toUChar ((c : Int) - 0x20) % 16 = c % 16) ∧
    (c < 0x20 → toUChar ((c : Int) - 0x20) = c + 224) := by
  refine ⟨numeric_char_effect hs hsplit hc htag hfin, ?_, ?_, ?_⟩
  · intro hd
    refine ⟨by simp [bodyUnits, hc, hd], ?_, by omega⟩
    unfold toUChar; omega
  · intro hd
    refine ⟨by simp [bodyUnits, hc, hd], ?_, ?_⟩ <;> (unfold toUChar; omega)
  · intro h
    unfold toUChar; omega

theorem numeric_unit_is_low_nibble_witness :
    (∃ mid aft,
      stateBefore (nmea_encode_type (bytes "$GPRMC,1\x015")) (List.replicate 2 0) (bytes "1")
        = some mid ∧
      stateBefore (nmea_encode_type (bytes "$GPRMC,1\x015")) (List.replicate 2 0)
        (bytes "1" ++ [0x01]) = some aft ∧
      aft.neOffset = mid.neOffset + 1 ∧
      unitAt (EncState.mk [0x10, 0x51] 0 4).neRecord mid.neOffset = 0x01 % 16) ∧
    (0x30 ≤ 0x01 ∧ 0x01 < 0x3A →
      bodyUnits 0x51 0x01 = [toUChar (((0x01 : Nat) : Int) - 0x30)] ∧
      toUChar (((0x01 : Nat) : Int) - 0x30) = 0x01 - 0x30 ∧ (0x01 - 0x30) % 16 = 0x01 % 16) ∧
    (¬ (0x30 ≤ 0x01 ∧ 0x01 < 0x3A) →
      bodyUnits 0x51 0x01 = [toUChar (((0x01 : Nat) : Int) - 0x20)] ∧
      toUChar (((0x01 : Nat) : Int) - 0x20) = (0x01 + 224) % 256 ∧
      toUChar (((0x01 : Nat) : Int) - 0x20) % 16 = 0x01 % 16) ∧
    (0x01 < 0x20 → toUChar (((0x01 : Nat) : Int) - 0x20) = 0x01 + 224) :=
  numeric_unit_is_low_nibble (bytes "$GPRMC,1\x015") (bytes "1") (bytes "5") 0x01 2
    ⟨[0x10, 0x51], 0, 4⟩ ((type_lt_iff _).mp (by decide)) (by decide) (by decide) (by decide)
    (by decide) (by decide)

/-! ## Ambiguity of the packed stream, and the skipped header -/

/-- C15: content of a `'B'` field can produce the terminator value. The distinct
sentences `"$GPGSA,"` followed by the byte `0xFF` and `"$GPGSA,,"` begin with the same
token and are encoded, from all-zero records of equal capacity (2 bytes, and the
56 bytes of the Python wrapper), into byte-identical records with the same number
of units written; so the encoding is not injective on recognized sentences. -/
theorem literal_content_collides_with_terminator :
    bytes "$GPGSA," ++ [0xFF] ≠ bytes "$GPGSA,," ∧
    TOKEN_GSA <+: bytes "$GPGSA," ++ [0xFF] ∧ TOKEN_GSA <+: bytes "$GPGSA,," ∧
    (neModel (nmea_encode_type (bytes "$GPGSA,,")))[0]? = some 0x42 ∧
    nmea_encode (bytes "$GPGSA," ++ [0xFF]) (List.replicate 2 0) = some ⟨[0xF2, 0x0F], 0, 3⟩ ∧
    nmea_encode (bytes "$GPGSA,,") (List.replicate 2 0) = some ⟨[0xF2, 0x0F], 1, 3⟩ ∧
    (nmea_encode (bytes "$GPGSA," ++ [0xFF]) (List.replicate 56 0)).map
        (fun st => (st.neRecord, st.neOffset)) =
      (nmea_encode (bytes "$GPGSA,,") (List.replicate 56 0)).map
        (fun st => (st.neRecord, st.neOffset)) ∧
    ¬ Function.Injective (fun s : List Nat =>
        (nmea_encode s (List.replicate 2 0)).map (fun st => (st.neRecord, st.neOffset))) := by
  refine ⟨by decide, by decide, by decide, by decide, by decide, by decide, by decide, ?_⟩
  intro hinj
  have h : bytes "$GPGSA," ++ [0xFF] = bytes "$GPGSA,," := hinj (by decide)
  revert h
  decide

/-- C16 does not hold of the code: `"x$GPRMC,12"` is recognized as RMC through the
token that `strstr` finds at offset 1, but the 7 characters skipped are the first
7 of the sentence, `"x$GPRMC"`, not the token; the scan starts at the comma of the
token, which is encoded as a terminator, where `"$GPRMC,12"` starts at `'1'`. -/
theorem skipped_header_not_matched_token :
    nmea_encode_type (bytes "x$GPRMC,12") = 0 ∧
    strstr (bytes "x$GPRMC,12") TOKEN_RMC = some 1 ∧
    (bytes "x$GPRMC,12").take 7 ≠ TOKEN_RMC ∧
    (bytes "x$GPRMC,12").drop 7 = bytes ",12" ∧
    nmea_encode (bytes "x$GPRMC,12") (List.replicate 3 0) = some ⟨[0xF0, 0x31, 0x32], 1, 6⟩ ∧
    nmea_encode (bytes "$GPRMC,12") (List.replicate 3 0) = some ⟨[0x10, 0x02, 0x00], 0, 3⟩ := by
  decide

/-! ## Bounds on the model pointer and on the cursor -/

theorem loopUnits_length_le (k : Nat) (cs : List Nat) (p : Nat) (us : List Nat)
    (h : loopUnits k p cs = some us) : us.length ≤ 2 * cs.length := by
  induction cs generalizing p us with
  | nil =>
    simp only [loopUnits, Option.some.injEq] at h
    subst h
    simp
  | cons c cs ih =>
    simp only [loopUnits] at h
    cases hm : modelAt k p with
    | none => simp [hm] at h
    | some tag =>
      simp only [hm] at h
      cases hl : loopUnits k (p + if c = 0x2C then 1 else 0) cs with
      | none => simp [hl] at h
      | some us' =>
        simp only [hl, Option.some.injEq] at h
        subst h
        have := ih _ _ hl
        have hw : tagWidth tag ≤ 2 := by unfold tagWidth; split <;> omega
        rw [List.length_append, bodyUnits_length, List.length_cons]
        omega

theorem modelAt_defined (k p : Nat) (hk : k < 4) (hp : p ≤ (neModel k).length) :
    ∃ tag, modelAt k p = some tag := by
  unfold modelAt
  rw [if_pos (by simpa [IDENT_MAX] using hk)]
  by_cases h : p < (neModel k).length
  · rw [if_pos h, List.getElem?_eq_getElem h]
    exact ⟨_, rfl⟩
  · rw [if_neg h, if_pos (by omega)]
    exact ⟨_, rfl⟩

theorem loopUnits_defined (k : Nat) (hk : k < 4) (cs : List Nat) (p : Nat)
    (hin : FieldsInside ((neModel k).length + 1) p cs) : ∃ us, loopUnits k p cs = some us := by
  induction cs generalizing p with
  | nil => exact ⟨[], rfl⟩
  | cons c cs ih =>
    obtain ⟨hp, hin'⟩ := fieldsInside_cons hin
    obtain ⟨tag, hm⟩ := modelAt_defined k p hk (by omega)
    obtain ⟨us, hus⟩ := ih _ hin'
    exact ⟨bodyUnits tag c ++ us, by simp only [loopUnits, hm, hus]⟩

theorem stateBefore_defined (k : Nat) (r pre us : List Nat)
    (hl : loopUnits k 0 pre = some us) (hcap : 1 + us.length ≤ 2 * r.length) :
    ∃ mid, stateBefore k r pre = some mid ∧ mid.neOffset = 1 + us.length ∧
      mid.nePointer = pre.count 0x2C := by
  obtain ⟨r', hw⟩ := writeUnits_isSome (toUChar k :: us) r 0
    (by simp only [List.length_cons]; omega)
  rw [stateBefore_eq, hl]
  simp only [hw]
  exact ⟨_, rfl, rfl, rfl⟩

/-- C17: in a recognized sentence of kind `k` with at most `len(model_k) - 1` commas
after the 7-character header (the models have 11, 14, 17 and 8 tags), every model
read made by `nmea_encode` uses a pointer strictly below `len(model_k)`: the pointer
at a character is the number of commas before it, the read returns a tag of the
model, `'Q'` or `'B'`, never the NUL or a byte past it, and with a record of
sufficient capacity the call returns. -/
theorem lookups_inside_model (s r pre post : List Nat) (c : Nat) (mid : EncState)
    (hs : HasToken s)
    (hcommas : (s.drop 7).count 0x2C ≤ (neModel (nmea_encode_type s)).length - 1)
    (hsplit : s.drop 7 = pre ++ c :: post)
    (hmid : stateBefore (nmea_encode_type s) r pre = some mid) :
    mid.nePointer = pre.count 0x2C ∧
    mid.nePointer < (neModel (nmea_encode_type s)).length ∧
    (∃ tag, modelAt (nmea_encode_type s) mid.nePointer = some tag ∧
      (neModel (nmea_encode_type s))[mid.nePointer]? = some tag ∧ (tag = 0x51 ∨ tag = 0x42)) ∧
    (1 + 2 * (s.drop 7).length ≤ 2 * r.length → ∃ fin, nmea_encode s r = some fin) ∧
    [0, 1, 2, 3].map (fun k => (neModel k).length) = [11, 14, 17, 8] := by
  have hk := hasToken_type_lt hs
  have hpos : 0 < (neModel (nmea_encode_type s)).length := by
    have : ∀ k, k < 4 → 0 < (neModel k).length := by decide
    exact this _ hk
  obtain ⟨_, _, _, hptr, _⟩ := stateBefore_some hmid
  have hle : pre.count 0x2C ≤ (s.drop 7).count 0x2C := by
    rw [hsplit, List.count_append]; omega
  have hlt : mid.nePointer < (neModel (nmea_encode_type s)).length := by omega
  obtain ⟨hm, htag⟩ := modelAt_inside _ _ hk hlt
  refine ⟨hptr, hlt, ⟨_, hm, ?_, htag⟩, ?_, by decide⟩
  · rw [List.getElem?_eq_getElem hlt, List.getD_eq_getElem _ _ hlt]
  · intro hcap
    have hin : FieldsInside (neModel (nmea_encode_type s)).length 0 (s.drop 7) :=
      fieldsInside_of_count (by omega)
    obtain ⟨us, hus⟩ := loopUnits_defined _ hk (s.drop 7) 0
      (fun i hi => Nat.lt_succ_of_lt (hin i hi))
    have hb := loopUnits_length_le _ _ _ _ hus
    obtain ⟨fin, hfin, _, _⟩ := stateBefore_defined _ r _ us hus (by omega)
    exact ⟨fin, by rw [encode_eq_stateBefore s r hk]; exact hfin⟩

theorem lookups_inside_model_witness :
    (EncState.mk [0xF3, 0x41, 0x00] 1 4).nePointer = (bytes ",A").count 0x2C ∧
    (EncState.mk [0xF3, 0x41, 0x00] 1 4).nePointer
      < (neModel (nmea_encode_type (bytes "$GPVTG,,A,7"))).length ∧
    (∃ tag, modelAt (nmea_encode_type (bytes "$GPVTG,,A,7"))
        (EncState.mk [0xF3, 0x41, 0x00] 1 4).nePointer = some tag ∧
      (neModel (nmea_encode_type (bytes "$GPVTG,,A,7")))[
        (EncState.mk [0xF3, 0x41, 0x00] 1 4).nePointer]? = some tag ∧
      (tag = 0x51 ∨ tag = 0x42)) ∧
    (1 + 2 * ((bytes "$GPVTG,,A,7").drop 7).length ≤ 2 * (List.replicate 3 0).length →
      ∃ fin, nmea_encode (bytes "$GPVTG,,A,7") (List.replicate 3 0) = some fin) ∧
    [0, 1, 2, 3].map (fun k => (neModel k).length) = [11, 14, 17, 8] :=
  lookups_inside_model (bytes "$GPVTG,,A,7") (List.replicate 3 0) (bytes ",A") (bytes "7") 0x2C
    ⟨[0xF3, 0x41, 0x00], 1, 4⟩ ((type_lt_iff _).mp (by decide)) (by decide) (by decide)
    (by decide)

theorem or_mod_256 (x y : Nat) : (x ||| y) % 256 = x % 256 ||| y % 256 := by
  apply Nat.eq_of_testBit_eq
  intro i
  have h256 : (256 : Nat) = 2 ^ 8 := by norm_num
  simp only [h256, Nat.testBit_mod_two_pow, Nat.testBit_or]
  by_cases h : i < 8 <;> simp [h]

theorem orBytes_length (a b : List Nat) (h : a.length = b.length) :
    (orBytes a b).length = b.length := by
  simp [orBytes, h]

theorem orBytes_getElem (a b : List Nat) (i : Nat) (h1 : i < (orBytes a b).length)
    (h2 : i < a.length) (h3 : i < b.length) : (orBytes a b)[i] = a[i] ||| b[i] := by
  simp [orBytes]

theorem orBytes_getD (a b : List Nat) (h : a.length = b.length) (i : Nat) :
    (orBytes a b).getD i 0 = a.getD i 0 ||| b.getD i 0 := by
  by_cases hi : i < b.length
  · rw [List.getD_eq_getElem _ _ (by rw [orBytes_length a b h]; exact hi),
      List.getD_eq_getElem _ _ (by omega), List.getD_eq_getElem _ _ hi,
      orBytes_getElem a b i _ (by omega) hi]
  · simp only [List.getD_eq_getElem?_getD]
    rw [List.getElem?_eq_none (by rw [orBytes_length a b h]; omega),
      List.getElem?_eq_none (by omega), List.getElem?_eq_none (by omega)]
    rfl

theorem orBytes_zero (r : List Nat) : orBytes r (List.replicate r.length 0) = r := by
  apply List.ext_getElem
  · simp [orBytes]
  · intro i h1 h2
    simp [orBytes]

theorem orBytes_idem (a b : List Nat) (h : a.length = b.length) :
    orBytes (orBytes a b) b = orBytes a b := by
  apply List.ext_getElem
  · simp [orBytes, h]
  · intro i h1 h2
    have hb : i < b.length := by rw [orBytes_length a b h] at h2; exact h2
    rw [orBytes_getElem _ _ i h1 h2 hb, orBytes_getElem a b i h2 (by omega) hb, Nat.or_assoc,
      Nat.or_self]

theorem setquartet_or (q off : Nat) (r zz : List Nat) (hlen : r.length = zz.length)
    (hr : ∀ b ∈ r, b < 256) :
    nmea_setquartet q (orBytes r zz) off = (nmea_setquartet q zz off).map (orBytes r) := by
  by_cases h : off / 2 < zz.length
  · obtain ⟨z1, hz1⟩ := setquartet_isSome q off zz h
    obtain ⟨r1, hr1⟩ := setquartet_isSome q off (orBytes r zz)
      (by rw [orBytes_length r zz hlen]; exact h)
    rw [hz1, hr1, Option.map_some']
    congr 1
    have hzl := setquartet_length hz1
    have hrl := setquartet_length hr1
    rw [orBytes_length r zz hlen] at hrl
    apply List.ext_getElem
    · rw [hrl, orBytes_length r z1 (by omega), hzl]
    · intro j h1 h2
      have hj : j < zz.length := by omega
      rw [orBytes_getElem r z1 j h2 (by omega) (by omega)]
      have e1 : r1[j] = r1.getD j 0 := (List.getD_eq_getElem _ _ h1).symm
      have e2 : z1[j] = z1.getD j 0 := (List.getD_eq_getElem _ _ (by omega)).symm
      have e3 : r[j] = r.getD j 0 := (List.getD_eq_getElem _ _ (by omega)).symm
      rw [e1, e2, e3]
      by_cases hb : j = off / 2
      · subst hb
        rw [(setquartet_eq_some hr1).2, (setquartet_eq_some hz1).2]
        simp only [List.getD_eq_getElem?_getD]
        rw [List.getElem?_set_self (by rw [orBytes_length r zz hlen]; exact hj),
          List.getElem?_set_self hj]
        simp only [Option.getD_some, ← List.getD_eq_getElem?_getD]
        rw [orBytes_getD r zz hlen, or_mod_256 (r.getD (off / 2) 0 ||| zz.getD (off / 2) 0),
          or_mod_256 (r.getD (off / 2) 0), or_mod_256 (zz.getD (off / 2) 0), Nat.or_assoc]
        have hlt : r.getD (off / 2) 0 < 256 := by
          rw [List.getD_eq_getElem _ _ (by omega)]
          exact hr _ (List.getElem_mem _)
        rw [Nat.mod_eq_of_lt hlt]
      · simp only [List.getD_eq_getElem?_getD]
        rw [setquartet_getElem? hr1 j hb, setquartet_getElem? hz1 j hb]
        simp only [← List.getD_eq_getElem?_getD]
        exact orBytes_getD r zz hlen j
  · rw [setquartet_eq_none h, setquartet_eq_none (by rw [orBytes_length r zz hlen]; exact h)]
    rfl

theorem writeUnits_or (qs : List Nat) (off : Nat) (r zz : List Nat) (hlen : r.length = zz.length)
    (hr : ∀ b ∈ r, b < 256) :
    writeUnits qs (orBytes r zz) off = (writeUnits qs zz off).map (orBytes r) := by
  induction qs generalizing zz off with
  | nil => simp [writeUnits]
  | cons q qs ih =>
    simp only [writeUnits, setquartet_or q off r zz hlen hr]
    cases hz : nmea_setquartet q zz off with
    | none => simp
    | some z1 =>
      simp only [Option.map_some']
      exact ih (off + 1) z1 (by rw [setquartet_length hz]; exact hlen)

theorem setquartet_bytes_lt {q off : Nat} {r r' : List Nat}
    (h : nmea_setquartet q r off = some r') (hr : ∀ b ∈ r, b < 256) : ∀ b ∈ r', b < 256 := by
  intro b hb
  rw [(setquartet_eq_some h).2] at hb
  rcases List.mem_or_eq_of_mem_set hb with h1 | h1
  · exact hr b h1
  · rw [h1]; exact Nat.mod_lt _ (by norm_num)

theorem writeUnits_bytes_lt {qs r r' : List Nat} {off : Nat}
    (h : writeUnits qs r off = some r') (hr : ∀ b ∈ r, b < 256) : ∀ b ∈ r', b < 256 := by
  induction qs generalizing r off with
  | nil => simp only [writeUnits, Option.some.injEq] at h; rw [← h]; exact hr
  | cons q qs ih =>
    simp only [writeUnits] at h
    cases hq : nmea_setquartet q r off with
    | none => simp [hq] at h
    | some r1 =>
      simp only [hq] at h
      exact ih h (setquartet_bytes_lt hq hr)

theorem encode_or (s r : List Nat) (hr : ∀ b ∈ r, b < 256) :
    nmea_encode s r = (nmea_encode s (List.replicate r.length 0)).map (orInto r) := by
  by_cases hk : nmea_encode_type s < 4
  · rw [encode_eq s r hk, encode_eq s _ hk]
    cases loopUnits (nmea_encode_type s) 0 (s.drop 7) with
    | none => rfl
    | some us =>
      simp only
      have := writeUnits_or (toUChar (nmea_encode_type s) :: us) 0 r
        (List.replicate r.length 0) (by simp) hr
      rw [orBytes_zero] at this
      rw [this]
      cases writeUnits (toUChar (nmea_encode_type s) :: us) (List.replicate r.length 0) 0 with
      | none => rfl
      | some z1 => rfl
  · unfold nmea_encode
    rw [if_neg (by simpa [IDENT_MAX] using hk), if_neg (by simpa [IDENT_MAX] using hk)]
    simp [orInto, orBytes_zero]

theorem encode_record_facts {s r : List Nat} {fin : EncState} (h : nmea_encode s r = some fin) :
    fin.neRecord.length = r.length ∧ ((∀ b ∈ r, b < 256) → ∀ b ∈ fin.neRecord, b < 256) := by
  by_cases hk : nmea_encode_type s < 4
  · rw [encode_eq_stateBefore s r hk] at h
    obtain ⟨us, _, hw, _, _⟩ := stateBefore_some h
    exact ⟨writeUnits_length hw, writeUnits_bytes_lt hw⟩
  · unfold nmea_encode at h
    rw [if_neg (by simpa [IDENT_MAX] using hk)] at h
    simp only [Option.some.injEq] at h
    subst h
    exact ⟨rfl, id⟩

/-- C19: for every sentence and every record of bytes, `nmea_encode` into the record
is the bytewise OR of the record with the encoding into the all-zero record of the
same capacity (the call fails in bounds for one exactly when it does for the
other); hence it never clears a bit that was set, and encoding the same sentence
again into its own output changes nothing. -/
theorem encode_is_or_of_zero_encode (s r : List Nat) (hr : ∀ b ∈ r, b < 256) :
    nmea_encode s r = (nmea_encode s (List.replicate r.length 0)).map (orInto r) ∧
    (∀ fin, nmea_encode s r = some fin →
      fin.neRecord.length = r.length ∧
      (∀ i j, (r.getD i 0).testBit j = true → (fin.neRecord.getD i 0).testBit j = true) ∧
      nmea_encode s fin.neRecord = some fin) := by
  refine ⟨encode_or s r hr, ?_⟩
  intro fin hfin
  have hor := encode_or s r hr
  rw [hfin] at hor
  cases he : nmea_encode s (List.replicate r.length 0) with
  | none => rw [he] at hor; cases hor
  | some e =>
    rw [he, Option.map_some', Option.some.injEq] at hor
    obtain ⟨hel, _⟩ := encode_record_facts he
    rw [List.length_replicate] at hel
    obtain ⟨hfl, hfb⟩ := encode_record_facts hfin
    refine ⟨hfl, ?_, ?_⟩
    · intro i j hbit
      rw [hor]
      simp only [orInto]
      rw [orBytes_getD r e.neRecord (by omega), Nat.testBit_or, hbit]
      rfl
    · have h2 := encode_or s fin.neRecord (hfb hr)
      rw [hfl, he, Option.map_some'] at h2
      rw [h2]
      congr 1
      rw [hor]
      simp only [orInto]
      rw [orBytes_idem r e.neRecord (by omega)]

theorem encode_is_or_of_zero_encode_witness :
    nmea_encode (bytes "$GPRMC,1,A") [0x00, 0x40, 0x80, 0xFF] =
      (nmea_encode (bytes "$GPRMC,1,A") (List.replicate [0x00, 0x40, 0x80, 0xFF].length 0)).map
        (orInto [0x00, 0x40, 0x80, 0xFF]) ∧
    (∀ fin, nmea_encode (bytes "$GPRMC,1,A") [0x00, 0x40, 0x80, 0xFF] = some fin →
      fin.neRecord.length = [0x00, 0x40, 0x80, 0xFF].length ∧
      (∀ i j, (([0x00, 0x40, 0x80, 0xFF] : List Nat).getD i 0).testBit j = true →
        (fin.neRecord.getD i 0).testBit j = true) ∧
      nmea_encode (bytes "$GPRMC,1,A") fin.neRecord = some fin) :=
  encode_is_or_of_zero_encode (bytes "$GPRMC,1,A") [0x00, 0x40, 0x80, 0xFF] (by decide)

end ElphelNmea
